import Mathlib

/-!
Verification development for the libdeflate-derived DEFLATE decompressor in
`lib/deflate_decompress.cpp`.  The C++ code is shallowly embedded: machine
integers become `Nat` with explicit `% 2^w` where overflow matters, memory
buffers become functions `Nat → Nat` (byte values) updated pointwise, and
every `assert` in the source (compiled with `NDEBUG` undefined, so a failed
assertion aborts the process) becomes an `Option` failure (`none`).
The machine word is taken to be 64 bits wide (`machine_word_t` on the
x86-64 builds the source targets).
-/

namespace Libdeflate

/-- Width of `machine_word_t` in bits (64-bit build). -/
def WORDBITS : Nat := 64

/-- Width of `machine_word_t` in bytes. -/
def WORDBYTES : Nat := 8

/-- Modelled from the spec: `deflate_constants.h` is not under `src/`.
Number of precode symbols (spec section 3: precode 19 symbols). -/
def DEFLATE_NUM_PRECODE_SYMS : Nat := 19

/-- Modelled from the spec: number of litlen symbols (spec section 3: up to 288). -/
def DEFLATE_NUM_LITLEN_SYMS : Nat := 288

/-- Modelled from the spec: number of offset symbols (spec section 3: up to 32). -/
def DEFLATE_NUM_OFFSET_SYMS : Nat := 32

/-- Modelled from the spec: maximum precode codeword length (spec section 3). -/
def DEFLATE_MAX_PRE_CODEWORD_LEN : Nat := 7

/-- Modelled from the spec: maximum litlen codeword length (spec section 3). -/
def DEFLATE_MAX_LITLEN_CODEWORD_LEN : Nat := 15

/-- Modelled from the spec: maximum offset codeword length (spec section 3). -/
def DEFLATE_MAX_OFFSET_CODEWORD_LEN : Nat := 15

/-- Modelled from the spec: block type 0 = uncompressed (spec section 3). -/
def DEFLATE_BLOCKTYPE_UNCOMPRESSED : Nat := 0

/-- Modelled from the spec: block type 1 = fixed/static Huffman (spec section 3). -/
def DEFLATE_BLOCKTYPE_STATIC_HUFFMAN : Nat := 1

/-- Modelled from the spec: block type 2 = dynamic Huffman (spec section 3). -/
def DEFLATE_BLOCKTYPE_DYNAMIC_HUFFMAN : Nat := 2

/-- Main-table size exponent for the precode decode table (`PRECODE_TABLEBITS`). -/
def PRECODE_TABLEBITS : Nat := 7

/-- Main-table size exponent for the litlen decode table (`LITLEN_TABLEBITS`). -/
def LITLEN_TABLEBITS : Nat := 10

/-- Main-table size exponent for the offset decode table (`OFFSET_TABLEBITS`). -/
def OFFSET_TABLEBITS : Nat := 8

/-!
## Input bitstream (`class InputStream`)

State: `bitbuf` (64-bit word, low `bitsleft` bits valid), `overrun` counts
virtual bytes read past the end of input, `pos` is the offset of `in_next`
from the start of the input.  The input itself is a byte list passed
separately, with `in_end - in` equal to its length.
-/

structure IS where
  bitbuf : Nat
  bitsleft : Nat
  overrun : Nat
  pos : Nat
  deriving Repr, DecidableEq

/-- Little-endian word load `get_unaligned_leword(in_next)` (modelled from the
spec, `unaligned.h` not being under `src/`: 64-bit little-endian load). -/
def leWordOfInput (inp : List Nat) (pos : Nat) : Nat :=
  (List.range WORDBYTES).foldl (fun acc k => acc + (inp.getD (pos + k) 0) <<< (8 * k)) 0

/-- Embedding of `InputStream::fill_bits_wordwise`. -/
def IS.fillWordwise (inp : List Nat) (s : IS) : IS :=
  { s with
    bitbuf := (s.bitbuf ||| (leWordOfInput inp s.pos <<< s.bitsleft)) % 2 ^ 64
    pos := s.pos + ((WORDBITS - s.bitsleft) >>> 3)
    bitsleft := s.bitsleft + ((WORDBITS - s.bitsleft) / 8) * 8 }

/-- One iteration body of the do-while loop in `InputStream::fill_bits_bytewise`. -/
def IS.fillBytewiseStep (inp : List Nat) (s : IS) : IS :=
  if s.pos ≠ inp.length then
    { s with
      bitbuf := (s.bitbuf ||| ((inp.getD s.pos 0) <<< s.bitsleft)) % 2 ^ 64
      pos := s.pos + 1
      bitsleft := s.bitsleft + 8 }
  else
    { s with overrun := s.overrun + 1, bitsleft := s.bitsleft + 8 }

/-- Embedding of the do-while loop of `InputStream::fill_bits_bytewise`; the
loop runs while `bitsleft <= bitbuf_length - 8` and adds 8 bits per step, so
`gas = 9` always suffices at the call sites (`bitsleft < 57` there). -/
def IS.fillBytewiseGo (inp : List Nat) : Nat → IS → IS
  | 0, s => s
  | gas + 1, s =>
    let s' := IS.fillBytewiseStep inp s
    if s'.bitsleft ≤ WORDBITS - 8 then IS.fillBytewiseGo inp gas s' else s'

/-- Embedding of `InputStream::fill_bits_bytewise`. -/
def IS.fillBytewise (inp : List Nat) (s : IS) : IS :=
  IS.fillBytewiseGo inp 9 s

/-- Embedding of `InputStream::ensure_bits<n>` (call sites have `n ≤ 57`). -/
def IS.ensureBits (inp : List Nat) (n : Nat) (s : IS) : IS :=
  if s.bitsleft < n then
    if inp.length - s.pos ≥ WORDBYTES then IS.fillWordwise inp s
    else IS.fillBytewise inp s
  else s

/-- Embedding of `InputStream::bits(n)`: the `assert(bitsleft >= n)` aborts
when violated, hence the `Option`. -/
def IS.bits (s : IS) (n : Nat) : Option Nat :=
  if n ≤ s.bitsleft then some (s.bitbuf &&& ((1 <<< n) - 1)) else none

/-- Embedding of `InputStream::remove_bits(n)`. -/
def IS.removeBits (s : IS) (n : Nat) : Option IS :=
  if n ≤ s.bitsleft then some { s with bitbuf := s.bitbuf >>> n, bitsleft := s.bitsleft - n }
  else none

/-- Embedding of `InputStream::pop_bits(n)`. -/
def IS.popBits (s : IS) (n : Nat) : Option (Nat × IS) := do
  let v ← s.bits n
  let s' ← s.removeBits n
  some (v, s')

/-- Embedding of `InputStream::size()`: the source computes `in_end - in_end`
(not `in_end - in_next`). -/
def IS.size (inlen : Nat) (_ : IS) : Nat :=
  inlen - inlen

/-- Embedding of `InputStream::align_input`: rewind `in_next` by the number of
whole buffered bytes that were actually read (buffered bytes minus virtual
overrun bytes), then clear the bit buffer. -/
def IS.alignInput (s : IS) : IS :=
  { s with
    pos := s.pos - ((s.bitsleft >>> 3) - min s.overrun (s.bitsleft >>> 3))
    bitbuf := 0
    bitsleft := 0 }

/-- Embedding of `InputStream::pop_u16` (asserts `size() >= 2` first). -/
def IS.popU16 (inp : List Nat) (s : IS) : Option (Nat × IS) :=
  if IS.size inp.length s ≥ 2 then
    some (inp.getD s.pos 0 + (inp.getD (s.pos + 1) 0) <<< 8, { s with pos := s.pos + 2 })
  else none

/-!
## Output window (`class DeflateWindow`)

The window owns a byte buffer of `2^window_bits` bytes (the entry point uses
`window_bits = 20`); `next` is the write-cursor offset from `buffer`.  The
caller's output buffer (`target`/`target_end`) is modelled by `out`,
`outPos`, `outCap`.  Byte stores are dropped when out of the buffer's bounds
(out-of-bounds stores are undefined behaviour in the source).
-/

/-- Bounded pointwise store into a byte buffer. -/
def bufWrite (sz : Nat) (f : Nat → Nat) (i v : Nat) : Nat → Nat :=
  if i < sz then fun j => if j = i then v else f j else f

/-- Byte `k` of the little-endian word `x`. -/
def byteAt (x k : Nat) : Nat :=
  (x >>> (8 * k)) % 256

/-- Little-endian 64-bit word load from a byte buffer (`load_word_unaligned`). -/
def leWordOfBuf (f : Nat → Nat) (src : Nat) : Nat :=
  (List.range WORDBYTES).foldl (fun acc k => acc + (f (src + k) % 256) <<< (8 * k)) 0

/-- Word store `store_word_unaligned(v, dst)`: write the 8 bytes of `v`. -/
def storeWordU (sz : Nat) (f : Nat → Nat) (dst v : Nat) : Nat → Nat :=
  (List.range WORDBYTES).foldl (fun g k => bufWrite sz g (dst + k) (byteAt v k)) f

/-- Embedding of `repeat_byte(b)`: broadcast a byte to all 8 lanes of a word. -/
def repeatByte (b : Nat) : Nat :=
  let v := b % 256
  let v := (v ||| (v <<< 8)) % 2 ^ 64
  let v := (v ||| (v <<< 16)) % 2 ^ 64
  (v ||| (v <<< 32)) % 2 ^ 64

/-- Embedding of `copy_word_unaligned(src, dst)` on the window buffer. -/
def copyWordU (sz : Nat) (f : Nat → Nat) (src dst : Nat) : Nat → Nat :=
  storeWordU sz f dst (leWordOfBuf f src)

/-- Embedding of the word-at-a-time do-while copy loop in `copy_match`
(the `offset >= WORDBYTES` branch after its first unconditional copy).
Structural recursion on fuel; the entry point `wordLoop` passes
`dstEnd - dst`, which always suffices since `dst` advances by 8 per step and
the loop is entered only when `dst < dstEnd` (do-while called after an
unconditional first copy). -/
def wordLoopGo (sz dstEnd : Nat) : Nat → (Nat → Nat) → Nat → Nat → Nat → Nat
  | 0, f, _, _ => f
  | fuel + 1, f, src, dst =>
    if dst + WORDBYTES < dstEnd then
      wordLoopGo sz dstEnd fuel (copyWordU sz f src dst) (src + WORDBYTES) (dst + WORDBYTES)
    else copyWordU sz f src dst

/-- Entry point for the word-at-a-time do-while copy loop of `copy_match`. -/
def wordLoop (sz dstEnd : Nat) (f : Nat → Nat) (src dst : Nat) : Nat → Nat :=
  wordLoopGo sz dstEnd (dstEnd - dst) f src dst

/-- Embedding of the broadcast do-while loop in `copy_match` (`offset == 1`),
with fuel as in `byteLoopGo` (a do-while stores at least one word). -/
def bcastLoopGo (sz dstEnd v : Nat) : Nat → (Nat → Nat) → Nat → Nat → Nat
  | 0, f, _ => f
  | fuel + 1, f, dst =>
    if dst + WORDBYTES < dstEnd then
      bcastLoopGo sz dstEnd v fuel (storeWordU sz f dst v) (dst + WORDBYTES)
    else storeWordU sz f dst v

/-- Entry point for the broadcast do-while loop of `copy_match`. -/
def bcastLoop (sz dstEnd : Nat) (v : Nat) (f : Nat → Nat) (dst : Nat) : Nat → Nat :=
  bcastLoopGo sz dstEnd v (dstEnd - dst + 1) f dst

/-- Embedding of the byte-at-a-time do-while loop `do { *dst++ = *src++; }
while (dst < dst_end);` in `copy_match`.  The entry point passes
`dstEnd - dst + 1` fuel: a do-while writes at least one byte even when
`dst` already reached `dstEnd`, and `dst` advances by one per step. -/
def byteLoopGo (sz dstEnd : Nat) : Nat → (Nat → Nat) → Nat → Nat → Nat → Nat
  | 0, f, _, _ => f
  | fuel + 1, f, src, dst =>
    if dst + 1 < dstEnd then
      byteLoopGo sz dstEnd fuel (bufWrite sz f dst (f src % 256)) (src + 1) (dst + 1)
    else bufWrite sz f dst (f src % 256)

/-- Entry point for the byte-at-a-time do-while loop of `copy_match`. -/
def byteLoop (sz dstEnd : Nat) (f : Nat → Nat) (src dst : Nat) : Nat → Nat :=
  byteLoopGo sz dstEnd (dstEnd - dst + 1) f src dst

/-- Embedding of the slow byte-wise path of `copy_match`: two unconditional
byte copies followed by the do-while loop. -/
def slowCopy (sz dstEnd : Nat) (f : Nat → Nat) (src dst : Nat) : Nat → Nat :=
  byteLoop sz dstEnd
    (bufWrite sz (bufWrite sz f dst (f src % 256)) (dst + 1)
      (bufWrite sz f dst (f src % 256) (src + 1) % 256))
    (src + 2) (dst + 2)

/-- Reference semantics used by the specification: a plain byte-by-byte copy
of `n` bytes from `src` to `dst`, in increasing order, each byte read after
all earlier bytes were written (DEFLATE self-overlap semantics). -/
def refCopy (sz : Nat) (f : Nat → Nat) (dst src : Nat) : Nat → Nat → Nat
  | 0 => f
  | n + 1 => refCopy sz (bufWrite sz f dst (f src % 256)) (dst + 1) (src + 1) n

structure Window where
  buf : Nat → Nat
  bufsize : Nat
  next : Nat
  currentBlk : Nat
  firstBlk : Nat
  firstRef : Nat
  blkCount : Nat
  out : Nat → Nat
  outPos : Nat
  outCap : Nat

/-- Embedding of `DeflateWindow::size()`. -/
def Window.size (w : Window) : Nat := w.next

/-- Embedding of `DeflateWindow::available()`. -/
def Window.avail (w : Window) : Nat := w.bufsize - w.next

/-- Embedding of `DeflateWindow::push(c)` (the caller casts to `byte`). -/
def Window.push (w : Window) (c : Nat) : Option Window :=
  if w.next < w.bufsize ∧ w.avail > 0 then
    some { w with buf := bufWrite w.bufsize w.buf w.next (c % 256), next := w.next + 1 }
  else none

/-- Buffer contents produced by `DeflateWindow::copy_match(length, offset)`:
the three-word fast path, the word-at-a-time path (`offset >= WORDBYTES`),
the broadcast path (`offset == 1`), or the byte-wise slow path, as in the
source (`src = next - offset`, `dst = next`, `dst_end = dst + length`). -/
def copyMatchBuf (sz : Nat) (f : Nat → Nat) (next length offset : Nat) : Nat → Nat :=
  if length ≤ 3 * WORDBYTES ∧ offset ≥ WORDBYTES ∧
      length + 3 * WORDBYTES ≤ sz - next then
    copyWordU sz
      (copyWordU sz (copyWordU sz f (next - offset) next)
        (next - offset + WORDBYTES) (next + WORDBYTES))
      (next - offset + 2 * WORDBYTES) (next + 2 * WORDBYTES)
  else
    if sz - (next + length) ≥ WORDBYTES - 1 then
      if offset ≥ WORDBYTES then
        if next + WORDBYTES < next + length then
          wordLoop sz (next + length) (copyWordU sz f (next - offset) next)
            (next - offset + WORDBYTES) (next + WORDBYTES)
        else copyWordU sz f (next - offset) next
      else if offset = 1 then
        bcastLoop sz (next + length) (repeatByte (f (next - 1))) f next
      else slowCopy sz (next + length) f (next - offset) next
    else slowCopy sz (next + length) f (next - offset) next

/-- Embedding of `DeflateWindow::copy_match(length, offset)`: the three
`assert`s, the `first_ref` update, the copy itself, and the cursor
advance. -/
def Window.copyMatch (w : Window) (length offset : Nat) : Option Window :=
  if offset ≤ w.size ∧ w.avail ≥ length ∧ offset > 0 then
    some { w with
             firstRef := if w.firstRef > w.next - offset then w.next - offset else w.firstRef
             buf := copyMatchBuf w.bufsize w.buf w.next length offset
             next := w.next + length }
  else none

/-- Functional model of `memcpy(dstf + dst, srcf + src, n)` between two
buffers (or two provably non-overlapping regions of one buffer). -/
def memcpyFn (dstf srcf : Nat → Nat) (dst src n : Nat) : Nat → Nat :=
  fun i => if dst ≤ i ∧ i < dst + n then srcf (src + (i - dst)) else dstf i

/-- Embedding of `DeflateWindow::copy(in, length)` together with the
`InputStream::copy` it calls (which asserts `size() >= n`). -/
def Window.copyFromInput (w : Window) (inp : List Nat) (s : IS) (n : Nat) :
    Option (Window × IS) :=
  if w.avail ≥ n then
    if IS.size inp.length s ≥ n then
      some ({ w with
                buf := memcpyFn w.buf (fun i => inp.getD i 0) w.next s.pos n
                next := w.next + n },
            { s with pos := s.pos + n })
    else none
  else none

/-- Keep size used by `DeflateWindow::flush()`:
`max((size_t)1 << 15, next - current_blk)`. -/
def Window.keepSize (w : Window) : Nat :=
  max (2 ^ 15) (w.next - w.currentBlk)

/-- Embedding of `DeflateWindow::flush()`.  Each `assert` is a failure
condition; the two `memcpy`s move the evicted prefix to the caller's buffer
and the retained suffix to the start of the window. -/
def Window.flush (w : Window) : Option Window :=
  if w.currentBlk ≤ w.next then
    if w.size > w.keepSize then
      if w.outPos + (w.size - w.keepSize) < w.outCap then
        if w.size - w.keepSize = w.next - w.keepSize ∧ w.keepSize < w.next - w.keepSize then
          if w.size - w.keepSize ≤ w.currentBlk then
            some { w with
                     out := memcpyFn w.out w.buf w.outPos 0 (w.size - w.keepSize)
                     outPos := w.outPos + (w.size - w.keepSize)
                     buf := memcpyFn w.buf w.buf 0 (w.next - w.keepSize) w.keepSize
                     next := w.keepSize
                     blkCount := 0
                     currentBlk := w.currentBlk - (w.size - w.keepSize)
                     firstBlk := w.currentBlk - (w.size - w.keepSize)
                     firstRef := w.currentBlk - (w.size - w.keepSize) }
          else none
        else none
      else none
    else some w
  else none

/-- Embedding of `DeflateWindow::full_flush()`.  The final `memcpy` writes
`size()` bytes at `target`; the source asserts `target + size() >=
target_end` and a copy beyond `target_end` would overrun the caller's
buffer, so the model also requires `outPos + size ≤ outCap`. -/
def Window.fullFlush (w : Window) : Option Window :=
  if w.currentBlk = w.next then
    if w.outPos + w.size ≥ w.outCap ∧ w.outPos + w.size ≤ w.outCap then
      some { w with out := memcpyFn w.out w.buf w.outPos 0 w.size }
    else none
  else none

/-- Embedding of `DeflateWindow::notify_end_block`. -/
def Window.notifyEndBlock (w : Window) : Window :=
  { w with currentBlk := w.next, blkCount := w.blkCount + 1 }

/-!
## Decode-table builder (`table_builder::build_decode_table`)

The `u16 working_space[]` regions (`len_counts`, `offsets`, `sorted_syms`)
are modelled as separate lists (all values fit in `u16`: counts and offsets
are at most `num_syms ≤ 288`).  The decode table is a function `Nat → Nat`
of 32-bit entries; reads of never-written entries yield the arbitrary
value 0 (the array is uninitialized in the source).  The source reads
`len_counts` past index `max_codeword_len` only by running off the end of
the array (undefined behaviour); the model fails (`none`) instead, via fuel
on the two scans that could do so.
-/

/-- Flag for main-table entries that point to a subtable. -/
def HUFFDEC_SUBTABLE_POINTER : Nat := 0x80000000

/-- Flag for litlen-table entries that produce a literal. -/
def HUFFDEC_LITERAL : Nat := 0x40000000

/-- Mask extracting the codeword-length byte of a decode-table entry. -/
def HUFFDEC_LENGTH_MASK : Nat := 0xFF

/-- Shift extracting the decode result of a decode-table entry. -/
def HUFFDEC_RESULT_SHIFT : Nat := 8

/-- Embedding of `make_decode_table_entry(result, length)` (u32 arithmetic). -/
def mkEntry (result length : Nat) : Nat :=
  ((result <<< 8) ||| length) % 2 ^ 32

/-- A `u32` array is embedded as its little-endian memory image: one natural
number holding entry `i` in bits `32·i .. 32·i + 31`.  `tabRead` loads
entry `i`. -/
def tabRead (t i : Nat) : Nat :=
  (t >>> (32 * i)) % 2 ^ 32

/-- Store of a `u32` value at entry `i` of a packed `u32` array (the value
is truncated to 32 bits, as a `u32` store is). -/
def tabWrite (t i v : Nat) : Nat :=
  t % 2 ^ (32 * i) + (v % 2 ^ 32) * 2 ^ (32 * i) +
    (t >>> (32 * (i + 1))) * 2 ^ (32 * (i + 1))

/-- Embedding of the `len_counts` accumulation loop: zero-initialize
`max_codeword_len + 1` counters, then count each symbol's length. -/
def countLens (lens : List Nat) (maxLen : Nat) : List Nat :=
  lens.foldl (fun cnts l => cnts.set l (cnts.getD l 0 + 1)) (List.replicate (maxLen + 1) 0)

/-- Embedding of the `offsets` prefix-sum loop: `offsets[0] = 0`,
`offsets[len + 1] = offsets[len] + len_counts[len]`. -/
def offsetsOf (counts : List Nat) (maxLen : Nat) : List Nat :=
  (List.range maxLen).foldl (fun offs l => offs ++ [offs.getD l 0 + counts.getD l 0]) [0]

/-- Embedding of the counting-sort loop producing `sorted_syms`; returns the
mutated `offsets` array together with the sorted-symbol array. -/
def sortedPass (lens : List Nat) (offs0 : List Nat) : List Nat × List Nat :=
  (List.range lens.length).foldl
    (fun st sym =>
      let l := lens.getD sym 0
      let o := st.1.getD l 0
      (st.1.set l (o + 1), st.2.set o sym))
    (offs0, List.replicate lens.length 0)

/-- Embedding of the codespace-validation loop: starting from `remainder = 1`,
for `len = 1..max` do `remainder = 2 * remainder - len_counts[len]`; `none`
when the remainder goes negative (over-subscribed code, `return false`). -/
def validateRem (counts : List Nat) (maxLen : Nat) : Option Int :=
  (List.range maxLen).foldlM
    (fun (rem : Int) l =>
      let rem' := 2 * rem - counts.getD (l + 1) 0
      if rem' < 0 then none else some rem')
    1

/-- Embedding of `while (len_counts[codeword_len] == 0) codeword_len++;`.
Fuel bounds the scan to the `len_counts` array; running past it is
undefined behaviour in the source, modelled as `none`. -/
def scanLen (counts : List Nat) : Nat → Nat → Option Nat
  | 0, _ => none
  | fuel + 1, l => if counts.getD l 0 = 0 then scanLen counts fuel (l + 1) else some l

/-- Embedding of the subtable-sizing loop: repeatedly subtract
`len_counts[table_bits + cur_table_bits]` from the remainder, stopping when
it drops to zero or below, else doubling; returns the chosen
`cur_table_bits`.  Fuel bounds the scan to the `len_counts` array. -/
def sizeLoop (counts : List Nat) (tb : Nat) : Nat → Nat → Int → Option Nat
  | 0, _, _ => none
  | fuel + 1, ctb, rem =>
    let rem' := rem - counts.getD (tb + ctb) 0
    if rem' ≤ 0 then some ctb
    else sizeLoop counts tb fuel (ctb + 1) (2 * rem')

/-- Embedding of the entry-fill loop: store `entry` at indices
`i, i + 2^k, i + 2·2^k, …` strictly below `endI`
(`k = codeword_len - num_dropped_bits`, so the stride is `1 << k`).
Structural recursion on fuel; the entry point passes `endI - i`, which
always suffices since the stride `2^k` is at least 1. -/
def fillEntriesGo (entry endI k : Nat) : Nat → Nat → Nat → Nat
  | 0, t, _ => t
  | fuel + 1, t, i =>
    if i < endI then fillEntriesGo entry endI k fuel (tabWrite t i entry) (i + 2 ^ k)
    else t

/-- Entry point for the entry-fill loop. -/
def fillEntries (t : Nat) (entry i endI k : Nat) : Nat :=
  fillEntriesGo entry endI k (endI - i + 1) t i

/-- Embedding of the bit-scan in the codeword increment:
`while (codeword_reversed & bit) bit >>= 1;`.  Structural recursion on
fuel; the entry point passes 65, enough for any `bit < 2^64` since `bit`
halves every step. -/
def bitScanGo (cw : Nat) : Nat → Nat → Nat
  | 0, bit => bit
  | fuel + 1, bit =>
    if bit = 0 then 0
    else if cw &&& bit ≠ 0 then bitScanGo cw fuel (bit / 2)
    else bit

/-- Entry point for the bit-scan of the codeword increment. -/
def bitScan (cw : Nat) (bit : Nat) : Nat :=
  bitScanGo cw 65 bit

/-- Embedding of the bit-reversed codeword increment (`bit = 1 << (len-1)`;
scan; `codeword_reversed = (codeword_reversed & (bit - 1)) | bit`).  When the
scan exhausts all bits, `bit` is 0 and `bit - 1` wraps to `0xFFFFFFFF` in the
source's unsigned arithmetic. -/
def revInc (cw len : Nat) : Nat :=
  let b := bitScan cw (1 <<< (len - 1))
  (cw &&& (if b = 0 then 2 ^ 32 - 1 else b - 1)) ||| b

/-- Loop state of the decode-table fill loop. -/
structure BState where
  table : Nat
  counts : List Nat
  cwrev : Nat
  pfx : Nat
  tstart : Nat
  tbits : Nat
  ndrop : Nat
  cwlen : Nat

/-- Embedding of the main fill loop of `build_decode_table`, iterating over
the used symbols of `sorted_syms` (the source indexes from
`offsets[0]` to `num_syms - 1`; `return true` fires when the index reaches
`num_syms`, i.e. when the list is exhausted). -/
def fillLoop (results : List Nat) (tb maxLen : Nat) :
    List Nat → BState → Option Nat
  | [], _ => none
  | sym :: rest, st => do
    let st ←
      if st.cwlen > tb ∧ (st.cwrev &&& (2 ^ tb - 1)) ≠ st.pfx then do
        let p := st.cwrev &&& (2 ^ tb - 1)
        let start := st.tstart + 2 ^ st.tbits
        let ctb ← sizeLoop st.counts tb (maxLen + 1) (st.cwlen - tb) ((2 : Int) ^ (st.cwlen - tb))
        some { st with
                 pfx := p, tstart := start, tbits := ctb, ndrop := tb
                 table := tabWrite st.table p
                   ((HUFFDEC_SUBTABLE_POINTER ||| mkEntry start ctb) % 2 ^ 32) }
      else some st
    let entry := mkEntry (results.getD sym 0) (st.cwlen - st.ndrop)
    let tbl := fillEntries st.table entry (st.tstart + (st.cwrev >>> st.ndrop))
                 (st.tstart + 2 ^ st.tbits) (st.cwlen - st.ndrop)
    match rest with
    | [] => some tbl
    | _ :: _ => do
      let counts' := st.counts.set st.cwlen (st.counts.getD st.cwlen 0 - 1)
      let cwlen' ← scanLen counts' (maxLen + 2) st.cwlen
      fillLoop results tb maxLen rest
        { st with table := tbl, cwrev := revInc st.cwrev st.cwlen
                  counts := counts', cwlen := cwlen' }

/-- Fill phase of `build_decode_table` (everything after codespace
validation): find the smallest used codeword length, then run the fill loop
over the used symbols. -/
def fillPhase (results : List Nat) (tb maxLen : Nat) (counts : List Nat)
    (usedSyms : List Nat) (t0 : Nat) : Option Nat := do
  let cwlen0 ← scanLen counts (maxLen + 2) 1
  fillLoop results tb maxLen usedSyms
    { table := t0, counts := counts, cwrev := 0, pfx := 2 ^ 32 - 1
      tstart := 0, tbits := tb, ndrop := 0, cwlen := cwlen0 }

/-- Embedding of `build_decode_table(decode_table, lens, num_syms,
decode_results, table_bits, max_codeword_len, working_space)`.
Result: `some none` models `return false`, `some (some t)` models
`return true` with final table contents `t`, and `none` models undefined
behaviour (reads past the working-space arrays). -/
def buildDecodeTable (lens results : List Nat) (tb maxLen : Nat) :
    Option (Option Nat) :=
  let counts := countLens lens maxLen
  let offs := offsetsOf counts maxLen
  let sp := sortedPass lens offs
  let usedSyms := sp.2.drop (sp.1.getD 0 0)
  match validateRem counts maxLen with
  | none => some none
  | some rem =>
    if rem ≠ 0 then
      let t0 := fillEntries 0 (mkEntry (results.getD 0 0) 1) 0 (2 ^ tb) 0
      if rem = (2 : Int) ^ maxLen then some (some t0)
      else if rem ≠ (2 : Int) ^ (maxLen - 1) ∨ counts.getD 1 0 ≠ 1 then some none
      else (fillPhase results tb maxLen counts usedSyms t0).map some
    else (fillPhase results tb maxLen counts usedSyms 0).map some

/-!
## Decode-result payload tables and block preparation
-/

/-- Embedding of `literal_entry(literal)`. -/
def literalEntry (lit : Nat) : Nat :=
  (HUFFDEC_LITERAL >>> HUFFDEC_RESULT_SHIFT) ||| lit

/-- Embedding of `length_entry(length_base, num_extra_bits)`. -/
def lengthEntry (base extra : Nat) : Nat :=
  (base <<< 8) ||| extra

/-- Embedding of `offset_entry(offset_base, num_extra_bits)`. -/
def offsetEntry (base extra : Nat) : Nat :=
  base ||| (extra <<< 16)

/-- Embedding of `precode_decode_results[]`: the symbol value itself. -/
def precode_decode_results : List Nat :=
  List.range DEFLATE_NUM_PRECODE_SYMS

/-- Embedding of `litlen_decode_results[]`: literal entries for symbols
0..255, the end-of-block entry (`length_base = 0`) for symbol 256, and the
RFC 1951 length bases with extra-bit counts for symbols 257..287. -/
def litlen_decode_results : List Nat :=
  (List.range 256).map literalEntry ++
  [lengthEntry 0 0,
   lengthEntry 3 0, lengthEntry 4 0, lengthEntry 5 0, lengthEntry 6 0,
   lengthEntry 7 0, lengthEntry 8 0, lengthEntry 9 0, lengthEntry 10 0,
   lengthEntry 11 1, lengthEntry 13 1, lengthEntry 15 1, lengthEntry 17 1,
   lengthEntry 19 2, lengthEntry 23 2, lengthEntry 27 2, lengthEntry 31 2,
   lengthEntry 35 3, lengthEntry 43 3, lengthEntry 51 3, lengthEntry 59 3,
   lengthEntry 67 4, lengthEntry 83 4, lengthEntry 99 4, lengthEntry 115 4,
   lengthEntry 131 5, lengthEntry 163 5, lengthEntry 195 5, lengthEntry 227 5,
   lengthEntry 258 0, lengthEntry 258 0, lengthEntry 258 0]

/-- Embedding of `offset_decode_results[]`: RFC 1951 offset bases with
extra-bit counts for symbols 0..31. -/
def offset_decode_results : List Nat :=
  [offsetEntry 1 0, offsetEntry 2 0, offsetEntry 3 0, offsetEntry 4 0,
   offsetEntry 5 1, offsetEntry 7 1, offsetEntry 9 2, offsetEntry 13 2,
   offsetEntry 17 3, offsetEntry 25 3, offsetEntry 33 4, offsetEntry 49 4,
   offsetEntry 65 5, offsetEntry 97 5, offsetEntry 129 6, offsetEntry 193 6,
   offsetEntry 257 7, offsetEntry 385 7, offsetEntry 513 8, offsetEntry 769 8,
   offsetEntry 1025 9, offsetEntry 1537 9, offsetEntry 2049 10, offsetEntry 3073 10,
   offsetEntry 4097 11, offsetEntry 6145 11, offsetEntry 8193 12, offsetEntry 12289 12,
   offsetEntry 16385 13, offsetEntry 24577 13, offsetEntry 32769 14, offsetEntry 49153 14]

/-- Result of an `assert(build_*_decode_table(..))` call: a `false` return
(`some none`) fails the assertion and aborts, as does modelled undefined
behaviour (`none`). -/
def assertBuild (r : Option (Option Nat)) : Option Nat :=
  match r with
  | some (some t) => some t
  | _ => none

/-- Embedding of the static-Huffman codeword lengths written by
`prepare_static`: litlen symbols 0..143 get length 8, 144..255 get 9,
256..279 get 7, 280..287 get 8; offset symbols get length 5. -/
def staticLens : List Nat :=
  List.replicate 144 8 ++ List.replicate 112 9 ++ List.replicate 24 7 ++
  List.replicate 8 8 ++ List.replicate DEFLATE_NUM_OFFSET_SYMS 5

/-- Embedding of `prepare_static`: build the offset table, then the litlen
table (both results asserted). -/
def prepareStatic : Option (Nat × Nat) := do
  let offT ← assertBuild (buildDecodeTable (staticLens.drop DEFLATE_NUM_LITLEN_SYMS)
    offset_decode_results OFFSET_TABLEBITS DEFLATE_MAX_OFFSET_CODEWORD_LEN)
  let litT ← assertBuild (buildDecodeTable (staticLens.take DEFLATE_NUM_LITLEN_SYMS)
    litlen_decode_results LITLEN_TABLEBITS DEFLATE_MAX_LITLEN_CODEWORD_LEN)
  some (litT, offT)

/-- Embedding of `deflate_precode_lens_permutation[]`. -/
def deflate_precode_lens_permutation : List Nat :=
  [16, 17, 18, 0, 8, 7, 9, 6, 10, 5, 11, 4, 12, 3, 13, 2, 14, 1, 15]

/-- Embedding of the run-length expansion loop in `prepare_dynamic` that
turns precode symbols into the `lens[]` array.  Fuel: every iteration
advances `i` by at least one, so `total + 1` iterations always suffice. -/
def precodeExpand (inp : List Nat) (ptable : Nat) (total : Nat) :
    Nat → Nat → (Nat → Nat) → IS → Option ((Nat → Nat) × IS)
  | 0, _, _, _ => none
  | fuel + 1, i, lensF, s =>
    if i < total then do
      let s := IS.ensureBits inp (DEFLATE_MAX_PRE_CODEWORD_LEN + 7) s
      let v ← s.bits DEFLATE_MAX_PRE_CODEWORD_LEN
      let entry := tabRead ptable v
      let s ← s.removeBits (entry &&& HUFFDEC_LENGTH_MASK)
      let presym := entry >>> HUFFDEC_RESULT_SHIFT
      if presym < 16 then
        precodeExpand inp ptable total fuel (i + 1)
          (fun j => if j = i then presym else lensF j) s
      else if presym = 16 then
        if i = 0 then none
        else do
          let repVal := lensF (i - 1)
          let (r, s) ← s.popBits 2
          precodeExpand inp ptable total fuel (i + (3 + r))
            (fun j => if i ≤ j ∧ j ≤ i + 5 then repVal else lensF j) s
      else if presym = 17 then do
        let (r, s) ← s.popBits 3
        precodeExpand inp ptable total fuel (i + (3 + r))
          (fun j => if i ≤ j ∧ j ≤ i + 9 then 0 else lensF j) s
      else do
        let (r, s) ← s.popBits 7
        precodeExpand inp ptable total fuel (i + (11 + r))
          (fun j => if i ≤ j ∧ j < i + (11 + r) then 0 else lensF j) s
    else some (lensF, s)

/-- Embedding of `prepare_dynamic`: read the block header counts, read the
explicit precode lengths in permutation order (zeroing the rest), build the
precode table, expand the run-length-coded lengths, then build the offset
and litlen tables. -/
def prepareDynamic (inp : List Nat) (s : IS) :
    Option (Nat × Nat × IS) := do
  let (nl5, s) ← s.popBits 5
  let numLitlen := nl5 + 257
  let (no5, s) ← s.popBits 5
  let numOffset := no5 + 1
  let (hc4, s) ← s.popBits 4
  let numExplicit := hc4 + 4
  let s := IS.ensureBits inp (DEFLATE_NUM_PRECODE_SYMS * 3) s
  let (plensF, s) ← (List.range numExplicit).foldlM
    (fun (st : (Nat → Nat) × IS) i => do
      let (v, s') ← st.2.popBits 3
      some ((fun j => if j = deflate_precode_lens_permutation.getD i 0 then v else st.1 j), s'))
    ((fun _ => 0 : Nat → Nat), s)
  let plensF := (List.range DEFLATE_NUM_PRECODE_SYMS).foldl
    (fun f i =>
      if numExplicit ≤ i then
        fun j => if j = deflate_precode_lens_permutation.getD i 0 then 0 else f j
      else f)
    plensF
  let ptable ← assertBuild (buildDecodeTable
    ((List.range DEFLATE_NUM_PRECODE_SYMS).map plensF)
    precode_decode_results PRECODE_TABLEBITS DEFLATE_MAX_PRE_CODEWORD_LEN)
  let total := numLitlen + numOffset
  let (lensF, s) ← precodeExpand inp ptable total (total + 1) 0 (fun _ => 0) s
  let offT ← assertBuild (buildDecodeTable
    ((List.range numOffset).map (fun k => lensF (numLitlen + k)))
    offset_decode_results OFFSET_TABLEBITS DEFLATE_MAX_OFFSET_CODEWORD_LEN)
  let litT ← assertBuild (buildDecodeTable
    ((List.range numLitlen).map lensF)
    litlen_decode_results LITLEN_TABLEBITS DEFLATE_MAX_LITLEN_CODEWORD_LEN)
  some (litT, offT, s)

/-!
## Block decoding and the entry point
-/

/-- Embedding of `do_uncompressed`. -/
def doUncompressed (inp : List Nat) (s : IS) (w : Window) : Option (IS × Window) := do
  let s := s.alignInput
  if IS.size inp.length s ≥ 4 then do
    let (len, s) ← s.popU16 inp
    let (nlen, s) ← s.popU16 inp
    if len = (65535 ^^^ nlen) % 2 ^ 16 then
      if len ≤ IS.size inp.length s then do
        let (w, s) ← w.copyFromInput inp s len
        some (s, w)
      else none
    else none
  else none

/-- Embedding of the main Huffman decode loop of `do_block` (block types 1
and 2).  Fuel models nontermination of the source loop as failure. -/
def decodeLoop (inp : List Nat) (litT offT : Nat) (isFinal : Bool) :
    Nat → IS → Window → Option (Bool × IS × Window)
  | 0, _, _ => none
  | fuel + 1, s, w => do
    let s := IS.ensureBits inp DEFLATE_MAX_LITLEN_CODEWORD_LEN s
    let idx ← s.bits LITLEN_TABLEBITS
    let e0 := tabRead litT idx
    let (entry, s) ←
      if e0 &&& HUFFDEC_SUBTABLE_POINTER ≠ 0 then do
        let s ← s.removeBits LITLEN_TABLEBITS
        let idx2 ← s.bits (e0 &&& HUFFDEC_LENGTH_MASK)
        some (tabRead litT (((e0 >>> HUFFDEC_RESULT_SHIFT) &&& 0xFFFF) + idx2), s)
      else some (e0, s)
    let s ← s.removeBits (entry &&& HUFFDEC_LENGTH_MASK)
    if entry &&& HUFFDEC_LITERAL ≠ 0 then do
      let w ← if w.avail = 0 then w.flush else some w
      let w ← w.push (entry >>> HUFFDEC_RESULT_SHIFT)
      decodeLoop inp litT offT isFinal fuel s w
    else do
      let entry := entry >>> HUFFDEC_RESULT_SHIFT
      let s := IS.ensureBits inp (WORDBITS - 7) s
      let (extra, s) ← s.popBits (entry &&& 0xFF)
      let length := ((entry >>> 8) + extra) % 2 ^ 32
      if (length + (2 ^ 32 - 1)) % 2 ^ 32 ≥ w.avail ∧ length = 0 then
        some (isFinal, s, w.notifyEndBlock)
      else do
        let w ←
          if (length + (2 ^ 32 - 1)) % 2 ^ 32 ≥ w.avail then do
            let w' ← w.flush
            if (length + (2 ^ 32 - 1)) % 2 ^ 32 ≥ w'.avail then none else some w'
          else some w
        if length = 0 then none
        else do
          let oidx ← s.bits OFFSET_TABLEBITS
          let e1 := tabRead offT oidx
          let (entry, s) ←
            if e1 &&& HUFFDEC_SUBTABLE_POINTER ≠ 0 then do
              let s ← s.removeBits OFFSET_TABLEBITS
              let idx2 ← s.bits (e1 &&& HUFFDEC_LENGTH_MASK)
              some (tabRead offT (((e1 >>> HUFFDEC_RESULT_SHIFT) &&& 0xFFFF) + idx2), s)
            else some (e1, s)
          let s ← s.removeBits (entry &&& HUFFDEC_LENGTH_MASK)
          let entry := entry >>> HUFFDEC_RESULT_SHIFT
          let (oExtra, s) ← s.popBits (entry >>> 16)
          let offset := (entry &&& 0xFFFF) + oExtra
          let w ← w.copyMatch length offset
          decodeLoop inp litT offT isFinal fuel s w

/-- Embedding of `do_block`: read `BFINAL` and `BTYPE`, dispatch on the
block type (the `default` case is `assert(false)`). -/
def doBlock (inp : List Nat) (s : IS) (w : Window) (loopFuel : Nat) :
    Option (Bool × IS × Window) := do
  let s := IS.ensureBits inp (1 + 2 + 5 + 5 + 4) s
  let (bf, s) ← s.popBits 1
  let isFinal := bf ≠ 0
  let (btype, s) ← s.popBits 2
  if btype = DEFLATE_BLOCKTYPE_DYNAMIC_HUFFMAN then do
    let (litT, offT, s) ← prepareDynamic inp s
    decodeLoop inp litT offT isFinal loopFuel s w
  else if btype = DEFLATE_BLOCKTYPE_UNCOMPRESSED then do
    let (s, w) ← doUncompressed inp s w
    some (isFinal, s, w)
  else if btype = DEFLATE_BLOCKTYPE_STATIC_HUFFMAN then do
    let (litT, offT) ← prepareStatic
    decodeLoop inp litT offT isFinal loopFuel s w
  else none

/-- Embedding of the do-while driver loop in `libdeflate_deflate_decompress`. -/
def driveBlocks (inp : List Nat) (loopFuel : Nat) :
    Nat → IS → Window → Option (IS × Window)
  | 0, _, _ => none
  | fuel + 1, s, w => do
    let (fin, s, w) ← doBlock inp s w loopFuel
    if fin then some (s, w) else driveBlocks inp loopFuel fuel s w

/-- Modelled from the spec: `enum libdeflate_result` (`libdeflate.h` is not
under `src/`); spec section 6 lists the status values. -/
inductive LibdeflateResult where
  | success
  | badData
  | shortOutput
  | insufficientSpace
  deriving Repr, DecidableEq

/-- Observable outcome of `libdeflate_deflate_decompress`: the returned
status, the caller's output buffer, the number of bytes written to it, and
the value stored through `actual_out_nbytes_ret` (`none` when the function
never writes through that pointer — the source contains no store to it). -/
structure DResult where
  status : LibdeflateResult
  out : Nat → Nat
  produced : Nat
  actualOut : Option Nat

/-- Embedding of `libdeflate_deflate_decompress`: build the input stream and
the window (`window_bits = 20`), decode blocks until `BFINAL`, then
`full_flush` and return `LIBDEFLATE_SUCCESS`.  `none` models an aborted
assertion, undefined behaviour, or nontermination (fuel). -/
def libdeflateDecompress (inp : List Nat) (outCap : Nat) (blockFuel loopFuel : Nat) :
    Option DResult := do
  let s0 : IS := ⟨0, 0, 0, 0⟩
  let w0 : Window :=
    ⟨fun _ => 0, 2 ^ 20, 0, 0, 0, 0, 0, fun _ => 0, 0, outCap⟩
  let (_, w) ← driveBlocks inp loopFuel blockFuel s0 w0
  let w ← w.fullFlush
  some ⟨.success, w.out, w.outPos + w.size, none⟩

/-!
## Concrete values used by witness theorems
-/

/-- Window holding 5 bytes with the current block starting at 0; `flush` on
it takes the no-eviction branch. -/
def c7Window : Window :=
  ⟨fun _ => 0, 2 ^ 20, 5, 5, 0, 0, 0, fun _ => 0, 0, 100⟩

/-- Window with 40000 bytes of which 1 belongs to the current block:
`keep_size = 32768 < size = 40000 ≤ 2·keep_size`, so `flush` aborts. -/
def c10StuckWindow : Window :=
  ⟨fun _ => 0, 2 ^ 20, 40000, 39999, 0, 0, 0, fun _ => 0, 0, 1000000⟩

/-- Window with 70000 bytes of which 1 belongs to the current block:
`size > 2·keep_size`, so `flush` evicts successfully. -/
def c10EvictWindow : Window :=
  ⟨fun _ => 0, 2 ^ 20, 70000, 69999, 0, 0, 0, fun _ => 0, 0, 1000000⟩

/-- The state `flush` produces from `c10EvictWindow`: 37232 bytes evicted to
the output, the last 32768 bytes moved to the start of the window. -/
def c10EvictResult : Window :=
  ⟨memcpyFn (fun _ => 0) (fun _ => 0) 0 37232 32768, 2 ^ 20, 32768, 32767, 32767, 32767, 0,
   memcpyFn (fun _ => 0) (fun _ => 0) 0 0 37232, 37232, 1000000⟩

/-- Window with 3 bytes `1, 2, 3` written, used to exercise `copy_match`. -/
def c2Window : Window :=
  ⟨fun i => (i + 1) % 256, 16, 3, 0, 0, 0, 0, fun _ => 0, 0, 100⟩

/-- The state `copy_match(4, 2)` produces from `c2Window` (byte-wise slow
path: `offset < WORDBYTES`, `offset ≠ 1`). -/
def c2WindowResult : Window :=
  ⟨copyMatchBuf 16 (fun i => (i + 1) % 256) 3 4 2, 16, 7, 0, 0, 0, 0, fun _ => 0, 0, 100⟩

/-!
## Specification-side canonical-Huffman definitions (for C1 and C6)
-/

/-- Bit reversal of the low `l` bits of `c`: bit `k` of `c` becomes bit
`l - 1 - k` of the result.  The DEFLATE bit stream transmits codewords
most-significant-bit first while the decoder indexes its table with the
first-received bit in the least-significant position, so a codeword of
value `c` and length `l` appears in the table index as `rev c l`. -/
def rev (c : Nat) : Nat → Nat
  | 0 => 0
  | l + 1 => c % 2 * 2 ^ l + rev (c / 2) l

/-- Sum of `g` over the interval `[n, n + k)`. -/
def lsum (g : Nat → Nat) : Nat → Nat → Nat
  | _, 0 => 0
  | n, k + 1 => g n + lsum g (n + 1) k

/-- Codespace mass, at scale `2 ^ maxLen`, of a list of symbols: each
symbol `s` with codeword length `ℓ = lens[s]` occupies a
`2 ^ (maxLen - ℓ)` share of the `2 ^ maxLen` codespace. -/
def massUpTo (lens : List Nat) (maxLen : Nat) : List Nat → Nat
  | [] => 0
  | s :: ss => 2 ^ (maxLen - lens.getD s 0) + massUpTo lens maxLen ss

/-- Kraft sum of the codeword lengths at scale `2 ^ l`: each used length
`x ≤ l` contributes `2 ^ (l - x)`. -/
def kraftAt (l : Nat) : List Nat → Nat
  | [] => 0
  | x :: xs => (if 1 ≤ x ∧ x ≤ l then 2 ^ (l - x) else 0) + kraftAt l xs

/-- The codeword lengths over-subscribe the codespace: at some length
`l ≤ maxLen` the lengths up to `l` claim more than the whole codespace at
scale `2 ^ l`.  This is the condition under which the validation scan's
remainder first goes negative. -/
def overSubscribed (lens : List Nat) (maxLen : Nat) : Prop :=
  ∃ l ∈ List.range (maxLen + 1), 1 ≤ l ∧ 2 ^ l < kraftAt l lens

/-- The completely empty code: no symbol is used. -/
def emptyCode (lens : List Nat) : Prop :=
  ∀ x ∈ lens, x = 0

/-- The accepted nonempty incomplete code: exactly one symbol is used and
its codeword has length 1. -/
def singleLen1Code (lens : List Nat) : Prop :=
  lens.count 1 = 1 ∧ ∀ x ∈ lens, x ≤ 1

/-- A complete code: the lengths fill the codespace exactly. -/
def completeCode (lens : List Nat) (maxLen : Nat) : Prop :=
  kraftAt maxLen lens = 2 ^ maxLen

/-- The used symbols of codeword length `l`, in increasing symbol order. -/
def symsOfLen (lens : List Nat) (l : Nat) : List Nat :=
  (List.range lens.length).filter (fun s => lens.getD s 0 == l)

/-- Concatenation of the used-symbol groups for lengths `l, l+1, …,
l+m-1`, each group in increasing symbol order. -/
def groupsFrom (lens : List Nat) : Nat → Nat → List Nat
  | _, 0 => []
  | l, m + 1 => symsOfLen lens l ++ groupsFrom lens (l + 1) m

/-- The used symbols in canonical order: primarily by increasing codeword
length, secondarily by increasing symbol value (RFC 1951 section 3.2.2). -/
def canonicalSyms (lens : List Nat) (maxLen : Nat) : List Nat :=
  groupsFrom lens 1 maxLen

/-- The `i`-th used symbol in canonical order. -/
def canonicalSymAt (lens : List Nat) (maxLen i : Nat) : Nat :=
  (canonicalSyms lens maxLen).getD i 0

/-- Codeword length of the `i`-th used symbol in canonical order. -/
def canonicalLenAt (lens : List Nat) (maxLen i : Nat) : Nat :=
  lens.getD (canonicalSymAt lens maxLen i) 0

/-- Canonical codeword value of the `i`-th used symbol: the codespace mass
consumed by the previous symbols, divided by this codeword's own share.
For the canonical code this equals RFC 1951's `next_code` construction:
shorter codewords get numerically smaller values, and equal-length
codewords increase with the symbol value. -/
def canonicalCWAt (lens : List Nat) (maxLen i : Nat) : Nat :=
  massUpTo lens maxLen ((canonicalSyms lens maxLen).take i) /
    2 ^ (maxLen - canonicalLenAt lens maxLen i)

/-- Codeword value of symbol `s` when the symbols listed in `p1` have
already consumed their codespace share. -/
def cwOf (lens : List Nat) (maxLen : Nat) (p1 : List Nat) (s : Nat) : Nat :=
  massUpTo lens maxLen p1 / 2 ^ (maxLen - lens.getD s 0)

/-- Decode-table correctness for a short codeword (length `≤ table_bits`):
every main-table slot whose low `lens[s]` bits equal the bit-reversed
codeword holds the entry `make_decode_table_entry(results[s], lens[s])`. -/
def goodShort (lens results : List Nat) (tb : Nat) (s c t : Nat) : Prop :=
  ∀ u, u < 2 ^ (tb - lens.getD s 0) →
    tabRead t (rev c (lens.getD s 0) + u * 2 ^ (lens.getD s 0)) =
      mkEntry (results.getD s 0) (lens.getD s 0)

/-- Decode-table correctness for a long codeword (length `> table_bits`)
through the subtable at `[start, start + 2^n)`: the main-table slot indexed
by the codeword's first `table_bits` bits (bit-reversed) holds the subtable
pointer entry, and every subtable slot whose low `lens[s] - table_bits`
bits equal the bit-reversed codeword suffix holds
`make_decode_table_entry(results[s], lens[s] - table_bits)`. -/
def goodLongAt (lens results : List Nat) (tb maxLen : Nat) (s c start n t : Nat) : Prop :=
  lens.getD s 0 - tb ≤ n ∧ n ≤ maxLen - tb ∧ 2 ^ tb ≤ start ∧
  tabRead t (rev (c / 2 ^ (lens.getD s 0 - tb)) tb) =
    (HUFFDEC_SUBTABLE_POINTER ||| mkEntry start n) % 2 ^ 32 ∧
  ∀ u, u < 2 ^ (n - (lens.getD s 0 - tb)) →
    tabRead t (start + rev (c % 2 ^ (lens.getD s 0 - tb)) (lens.getD s 0 - tb) +
        u * 2 ^ (lens.getD s 0 - tb)) =
      mkEntry (results.getD s 0) (lens.getD s 0 - tb)

/-- Decode-table correctness for one symbol `s` whose codeword value is
determined by the already-consumed prefix `p1` of the canonical order. -/
def goodFinal (lens results : List Nat) (tb maxLen : Nat) (p1 : List Nat) (s t : Nat) : Prop :=
  (lens.getD s 0 ≤ tb → goodShort lens results tb s (cwOf lens maxLen p1 s) t) ∧
  (tb < lens.getD s 0 → ∃ start n,
    start + 2 ^ n ≤ 2 ^ tb + 2 ^ maxLen ∧
    goodLongAt lens results tb maxLen s (cwOf lens maxLen p1 s) start n t)

/-- Loop invariant of the fill loop tying `BState` to the canonical code:
either no subtable has been opened yet (initial sentinel prefix, fills go
to the main table), or the subtable for prefix `q0` is open and the state
records its location, the pointer entry is in place, the consumed mass `C`
lies inside prefix `q0`'s bucket, enough short-enough symbols remain to
fill the open subtable, and every long symbol already processed has its
entries in a subtable at or below the open one. -/
def phaseInv (lens results : List Nat) (tb maxLen : Nat)
    (pre suf : List Nat) (st : BState) : Prop :=
  (st.pfx = 2 ^ 32 - 1 ∧ st.ndrop = 0 ∧ st.tstart = 0 ∧ st.tbits = tb ∧
    2 ^ (maxLen - tb) ∣ massUpTo lens maxLen pre ∧
    ∀ s ∈ pre, lens.getD s 0 ≤ tb) ∨
  (∃ q0, st.ndrop = tb ∧ st.pfx = rev q0 tb ∧ q0 < 2 ^ tb ∧
    q0 * 2 ^ (maxLen - tb) ≤ massUpTo lens maxLen pre ∧
    massUpTo lens maxLen pre ≤ (q0 + 1) * 2 ^ (maxLen - tb) ∧
    2 ^ tb ≤ st.tstart ∧
    st.tstart + 2 ^ st.tbits ≤ 2 ^ tb + (q0 + 1) * 2 ^ (maxLen - tb) ∧
    st.tbits ≤ maxLen - tb ∧
    (suf ≠ [] → tb < st.cwlen) ∧
    tabRead st.table (rev q0 tb) =
      (HUFFDEC_SUBTABLE_POINTER ||| mkEntry st.tstart st.tbits) % 2 ^ 32 ∧
    (q0 + 1) * 2 ^ (maxLen - tb) ≤ massUpTo lens maxLen pre +
      massUpTo lens maxLen (suf.filter (fun s => lens.getD s 0 ≤ tb + st.tbits)) ∧
    (∀ p1 s p2, pre = p1 ++ s :: p2 → tb < lens.getD s 0 →
      ∃ start n,
        goodLongAt lens results tb maxLen s (cwOf lens maxLen p1 s) start n st.table ∧
        (cwOf lens maxLen p1 s / 2 ^ (lens.getD s 0 - tb) < q0 ∧
            start + 2 ^ n ≤ st.tstart ∨
          cwOf lens maxLen p1 s / 2 ^ (lens.getD s 0 - tb) = q0 ∧
            start = st.tstart ∧ n = st.tbits)))

/-- Number of symbols with length below `l` (prefix sums of the length
counts): the initial value of `offsets[l]`. -/
def offsAt (counts : List Nat) (l : Nat) : Nat :=
  lsum (fun j => counts.getD j 0) 0 l

/-- Number of symbols before index `k` whose codeword length is `l`. -/
def cntBelow (lens : List Nat) (k l : Nat) : Nat :=
  ((List.range k).filter (fun s => lens.getD s 0 == l)).length

/-- State of the counting-sort loop after processing symbols `0..k-1`. -/
def sortedPassAt (lens : List Nat) (offs0 : List Nat) (k : Nat) : List Nat × List Nat :=
  (List.range k).foldl
    (fun st sym =>
      let l := lens.getD sym 0
      let o := st.1.getD l 0
      (st.1.set l (o + 1), st.2.set o sym))
    (offs0, List.replicate lens.length 0)

/-!
## Theorems
-/

/-- C7: whenever `flush()` completes, the window still holds at least
`min(size_before_flush, 32 KiB)` of the most recently written bytes: every
back-reference offset up to that bound reads the same byte after the flush
as before it. -/
theorem c7_flush_retains_recent_bytes (w w' : Window) (h : w.flush = some w') :
    min w.size (2 ^ 15) ≤ w'.size ∧
    ∀ off, 1 ≤ off → off ≤ min w.size (2 ^ 15) →
      w'.buf (w'.next - off) = w.buf (w.next - off) := by
  unfold Window.flush at h
  split_ifs at h with h1 h2 h3 h4 h5
  · cases h
    have hkeep : 2 ^ 15 ≤ w.keepSize := le_max_left _ _
    simp only [Window.size] at h2 ⊢
    refine ⟨by omega, fun off hoff1 hoff2 => ?_⟩
    simp only [Window.size] at hoff2
    unfold memcpyFn
    rw [if_pos (by omega)]
    congr 1
    omega
  · cases h
    exact ⟨Nat.min_le_left _ _, fun off _ _ => rfl⟩

/-- Witness for C7 (first conjunct) at the concrete window `c7Window`, on
which `flush` completes without evicting. -/
theorem c7_flush_retains_recent_bytes_witness :
    min c7Window.size (2 ^ 15) ≤ c7Window.size :=
  (c7_flush_retains_recent_bytes c7Window c7Window (by rfl)).1

/-- C10: the eviction branch of `flush()` can only complete when the window
held strictly more than `2 · keep_size` bytes (forced by the source's
`assert(buffer + keep_size < next - keep_size)`); whenever
`keep_size < size ≤ 2 · keep_size`, `flush()` aborts instead of evicting. -/
theorem c10_flush_eviction_needs_double_keep (w : Window) :
    (w.keepSize < w.size ∧ w.size ≤ 2 * w.keepSize → w.flush = none) ∧
    (∀ w', w.flush = some w' → w.keepSize < w.size → 2 * w.keepSize < w.size) := by
  constructor
  · rintro ⟨hk, hs⟩
    unfold Window.flush
    split_ifs with h1 h2 h3 h4 <;> first
      | rfl
      | (exact absurd h2 (by omega))
      | (simp only [Window.size] at *; omega)
  · intro w' h hk
    unfold Window.flush at h
    split_ifs at h with h1 h2 h3 h4 h5 <;> omega

/-- Witness for C10: `flush` aborts on `c10StuckWindow`
(`32768 < 40000 ≤ 65536`), and the completed eviction on `c10EvictWindow`
implies `2 · keep_size < size` there. -/
theorem c10_flush_eviction_needs_double_keep_witness :
    c10StuckWindow.flush = none ∧ 2 * c10EvictWindow.keepSize < c10EvictWindow.size :=
  ⟨(c10_flush_eviction_needs_double_keep c10StuckWindow).1 (by constructor <;> decide),
   (c10_flush_eviction_needs_double_keep c10EvictWindow).2 c10EvictResult (by rfl) (by decide)⟩

/-- Helper: pointwise value of a bounded byte store. -/
theorem bufWrite_apply (sz : Nat) (f : Nat → Nat) (i v j : Nat) :
    bufWrite sz f i v j = if j = i ∧ i < sz then v else f j := by
  unfold bufWrite
  split_ifs with h1 h2 h3 <;> simp_all

/-- Helper: bytes of the little-endian word loaded from a buffer. -/
theorem byteAt_leWordOfBuf (f : Nat → Nat) (src k : Nat) (hk : k < 8) :
    byteAt (leWordOfBuf f src) k = f (src + k) % 256 := by
  have h : ∀ m, f m % 256 < 256 := fun m => Nat.mod_lt _ (by norm_num)
  unfold leWordOfBuf byteAt WORDBYTES
  simp only [List.range_succ, List.foldl_append, List.foldl_cons, List.foldl_nil,
    List.range_zero, Nat.shiftLeft_eq, Nat.shiftRight_eq_div_pow]
  have h0 := h src
  have h1 := h (src + 1)
  have h2 := h (src + 2)
  have h3 := h (src + 3)
  have h4 := h (src + 4)
  have h5 := h (src + 5)
  have h6 := h (src + 6)
  have h7 := h (src + 7)
  interval_cases k <;> push_cast <;> omega

/-- Helper: pointwise value of a prefix of the byte stores of a word store. -/
theorem storeWordU_aux (sz dst v j : Nat) :
    ∀ m (f : Nat → Nat),
      ((List.range m).foldl (fun g k => bufWrite sz g (dst + k) (byteAt v k)) f) j =
        if dst ≤ j ∧ j < dst + m ∧ j < sz then byteAt v (j - dst) else f j := by
  intro m
  induction m with
  | zero =>
    intro f
    simp only [List.range_zero, List.foldl_nil]
    rw [if_neg (by omega)]
  | succ m ih =>
    intro f
    rw [List.range_succ, List.foldl_append, List.foldl_cons, List.foldl_nil,
      bufWrite_apply, ih]
    by_cases hj : j = dst + m ∧ dst + m < sz
    · obtain ⟨rfl, hsz⟩ := hj
      rw [if_pos ⟨rfl, hsz⟩, if_pos ⟨by omega, by omega, hsz⟩, Nat.add_sub_cancel_left]
    · rw [if_neg hj]
      by_cases hin : dst ≤ j ∧ j < dst + m ∧ j < sz
      · rw [if_pos hin, if_pos ⟨hin.1, by omega, hin.2.2⟩]
      · rw [if_neg hin, if_neg (by omega)]

/-- Helper: pointwise value of a word store. -/
theorem storeWordU_apply (sz : Nat) (f : Nat → Nat) (dst v j : Nat) :
    storeWordU sz f dst v j =
      if dst ≤ j ∧ j < dst + 8 ∧ j < sz then byteAt v (j - dst) else f j := by
  unfold storeWordU WORDBYTES
  exact storeWordU_aux sz dst v j 8 f

/-- Helper: a byte-by-byte copy leaves every position outside
`[dst, dst + n)` unchanged. -/
theorem refCopy_out (sz : Nat) :
    ∀ n (f : Nat → Nat) dst src j, j < dst ∨ dst + n ≤ j →
      refCopy sz f dst src n j = f j := by
  intro n
  induction n with
  | zero => intro f dst src j _; rfl
  | succ n ih =>
    intro f dst src j hj
    show refCopy sz (bufWrite sz f dst (f src % 256)) (dst + 1) (src + 1) n j = f j
    rw [ih _ _ _ _ (by omega), bufWrite_apply]
    split_ifs with h
    · omega
    · rfl

/-- Helper: extending a byte-by-byte copy does not change positions below
`dst + n`. -/
theorem refCopy_agree (sz : Nat) :
    ∀ n m (f : Nat → Nat) dst src j, n ≤ m → j < dst + n →
      refCopy sz f dst src m j = refCopy sz f dst src n j := by
  intro n
  induction n with
  | zero =>
    intro m f dst src j _ hj
    rw [refCopy_out sz m f dst src j (by omega)]
    rfl
  | succ n ih =>
    intro m f dst src j hnm hj
    obtain ⟨m', rfl⟩ : ∃ m', m = m' + 1 := ⟨m - 1, by omega⟩
    show refCopy sz _ (dst + 1) (src + 1) m' j = refCopy sz _ (dst + 1) (src + 1) n j
    exact ih m' _ (dst + 1) (src + 1) j (by omega) (by omega)

/-- Helper: when source and destination do not overlap, a byte-by-byte copy
reads only original bytes. -/
theorem refCopy_in (sz : Nat) :
    ∀ n (f : Nat → Nat) dst src k, k < n → src + n ≤ dst →
      refCopy sz f dst src n (dst + k) =
        if dst + k < sz then f (src + k) % 256 else f (dst + k) := by
  intro n
  induction n with
  | zero => intro f dst src k hk; omega
  | succ n ih =>
    intro f dst src k hk hno
    show refCopy sz (bufWrite sz f dst (f src % 256)) (dst + 1) (src + 1) n (dst + k) = _
    cases k with
    | zero =>
      simp only [Nat.add_zero]
      rw [refCopy_out sz n _ (dst + 1) (src + 1) dst (by omega), bufWrite_apply]
      simp
    | succ k =>
      have := ih (bufWrite sz f dst (f src % 256)) (dst + 1) (src + 1) k (by omega) (by omega)
      rw [show dst + (k + 1) = (dst + 1) + k by omega, this,
        show (src + 1) + k = src + (k + 1) by omega,
        show (dst + 1) + k = dst + (k + 1) by omega, bufWrite_apply, bufWrite_apply]
      split_ifs <;> first | rfl | omega

/-- Helper: a byte-by-byte copy of `n + m` bytes is a copy of `n` bytes
followed by a copy of `m` bytes. -/
theorem refCopy_append (sz : Nat) :
    ∀ n m (f : Nat → Nat) dst src,
      refCopy sz f dst src (n + m) =
        refCopy sz (refCopy sz f dst src n) (dst + n) (src + n) m := by
  intro n
  induction n with
  | zero =>
    intro m f dst src
    rw [Nat.zero_add, Nat.add_zero, Nat.add_zero]
    rfl
  | succ n ih =>
    intro m f dst src
    rw [show n + 1 + m = (n + m) + 1 by omega,
      show dst + (n + 1) = (dst + 1) + n by omega,
      show src + (n + 1) = (src + 1) + n by omega]
    exact ih m (bufWrite sz f dst (f src % 256)) (dst + 1) (src + 1)

/-- Helper: a byte-by-byte copy with `offset = 1` broadcasts the byte just
before the destination. -/
theorem refCopy_off1 (sz : Nat) :
    ∀ n (f : Nat → Nat) dst k, 1 ≤ dst → k < n → dst + k < sz →
      refCopy sz f dst (dst - 1) n (dst + k) = f (dst - 1) % 256 := by
  intro n
  induction n with
  | zero => intro f dst k _ hk; omega
  | succ n ih =>
    intro f dst k hdst hk hsz
    show refCopy sz (bufWrite sz f dst (f (dst - 1) % 256)) (dst + 1) (dst - 1 + 1) n (dst + k) = _
    rw [show dst - 1 + 1 = dst by omega]
    cases k with
    | zero =>
      simp only [Nat.add_zero] at hsz ⊢
      rw [refCopy_out sz n _ (dst + 1) dst dst (by omega), bufWrite_apply]
      simp [hsz]
    | succ k =>
      have := ih (bufWrite sz f dst (f (dst - 1) % 256)) (dst + 1) k (by omega) (by omega)
        (by omega)
      rw [show dst + 1 - 1 = dst by omega] at this
      rw [show dst + (k + 1) = (dst + 1) + k by omega, this, bufWrite_apply]
      split_ifs with h
      · exact Nat.mod_mod_of_dvd _ dvd_rfl
      · omega

/-- Helper: a word copy with `offset ≥ 8` equals eight byte-by-byte copies. -/
theorem copyWordU_as_refCopy (sz : Nat) (f : Nat → Nat) (src dst : Nat)
    (h : src + 8 ≤ dst) : copyWordU sz f src dst = refCopy sz f dst src 8 := by
  funext j
  unfold copyWordU
  rw [storeWordU_apply]
  by_cases hin : dst ≤ j ∧ j < dst + 8
  · obtain ⟨k, rfl⟩ : ∃ k, j = dst + k := ⟨j - dst, by omega⟩
    rw [refCopy_in sz 8 f dst src k (by omega) h, Nat.add_sub_cancel_left]
    by_cases hsz : dst + k < sz
    · rw [if_pos ⟨hin.1, hin.2, hsz⟩, if_pos hsz, byteAt_leWordOfBuf f src k (by omega)]
    · rw [if_neg (by tauto), if_neg hsz]
  · rw [if_neg (by tauto), refCopy_out sz 8 f dst src j (by omega)]

/-- Helper: the word-at-a-time do-while loop performs some number of
byte-by-byte copies covering `dstEnd`, provided the source precedes the
destination by at least a word. -/
theorem wordLoopGo_refCopy (sz dstEnd : Nat) :
    ∀ fuel (f : Nat → Nat) src dst, src + 8 ≤ dst → dstEnd ≤ fuel + dst →
      ∃ N, wordLoopGo sz dstEnd fuel f src dst = refCopy sz f dst src N ∧
        dstEnd ≤ dst + N := by
  intro fuel
  induction fuel with
  | zero => intro f src dst _ hf; exact ⟨0, rfl, by omega⟩
  | succ fuel ih =>
    intro f src dst hoff hf
    rw [wordLoopGo]
    by_cases hc : dst + WORDBYTES < dstEnd
    · obtain ⟨N', hEq, hCov⟩ := ih (copyWordU sz f src dst) (src + WORDBYTES)
        (dst + WORDBYTES) (by simp only [WORDBYTES]; omega)
        (by simp only [WORDBYTES] at *; omega)
      refine ⟨8 + N', ?_, by simp only [WORDBYTES] at hCov; omega⟩
      rw [if_pos hc, hEq, copyWordU_as_refCopy sz f src dst hoff, refCopy_append]
      simp only [WORDBYTES]
    · refine ⟨8, ?_, by simp only [WORDBYTES] at hc; omega⟩
      rw [if_neg hc]
      exact copyWordU_as_refCopy sz f src dst hoff

/-- Helper: the byte-at-a-time do-while loop performs some number `N ≥ 1` of
byte-by-byte copies covering `dstEnd`. -/
theorem byteLoopGo_refCopy (sz dstEnd : Nat) :
    ∀ fuel (f : Nat → Nat) src dst, dstEnd ≤ fuel + dst → 1 ≤ fuel →
      ∃ N, byteLoopGo sz dstEnd fuel f src dst = refCopy sz f dst src N ∧
        dstEnd ≤ dst + N ∧ 1 ≤ N := by
  intro fuel
  induction fuel with
  | zero => intro f src dst _ hf; omega
  | succ fuel ih =>
    intro f src dst hf _
    rw [byteLoopGo]
    by_cases hc : dst + 1 < dstEnd
    · obtain ⟨N', hEq, hCov, hN⟩ := ih (bufWrite sz f dst (f src % 256)) (src + 1) (dst + 1)
        (by omega) (by omega)
      refine ⟨N' + 1, ?_, by omega, by omega⟩
      rw [if_pos hc, hEq]
      rfl
    · exact ⟨1, by rw [if_neg hc]; rfl, by omega, by omega⟩

/-- Helper: the slow path of `copy_match` performs some number `N ≥ 3` of
byte-by-byte copies covering `dstEnd`. -/
theorem slowCopy_refCopy (sz dstEnd : Nat) (f : Nat → Nat) (src dst : Nat) :
    ∃ N, slowCopy sz dstEnd f src dst = refCopy sz f dst src N ∧
      dstEnd ≤ dst + N := by
  obtain ⟨N', hEq, hCov, hN⟩ := byteLoopGo_refCopy sz dstEnd (dstEnd - (dst + 2) + 1)
    (bufWrite sz (bufWrite sz f dst (f src % 256)) (dst + 1)
      ((bufWrite sz f dst (f src % 256)) (src + 1) % 256))
    (src + 2) (dst + 2) (by omega) (by omega)
  refine ⟨N' + 1 + 1, ?_, by omega⟩
  unfold slowCopy byteLoop
  rw [hEq]
  rfl

set_option maxRecDepth 40000 in
/-- Helper: every byte lane of `repeat_byte(b)` is `b % 256` (checked for
all byte values, to which `repeat_byte` only ever applies). -/
theorem byteAt_repeatByte_ofByte : ∀ c < 256, ∀ k < 8, byteAt (repeatByte c) k = c := by
  decide

/-- Helper: every byte lane of `repeat_byte(b)` is `b % 256`. -/
theorem byteAt_repeatByte (b k : Nat) (hk : k < 8) :
    byteAt (repeatByte b) k = b % 256 := by
  have h1 : repeatByte b = repeatByte (b % 256) := by
    unfold repeatByte
    rw [Nat.mod_mod_of_dvd _ dvd_rfl]
  rw [h1]
  exact byteAt_repeatByte_ofByte (b % 256) (Nat.mod_lt _ (by norm_num)) k hk

/-- Helper: the broadcast do-while loop writes the constant byte `c` on all
of `[dst, dstEnd)` (within bounds) and nothing below `dst`, when every byte
lane of `v` is `c`. -/
theorem bcastLoopGo_const (sz dstEnd v c : Nat) (hv : ∀ k < 8, byteAt v k = c) :
    ∀ fuel (f : Nat → Nat) dst, dstEnd ≤ fuel + dst →
      ∀ j, (j < dst → bcastLoopGo sz dstEnd v fuel f dst j = f j) ∧
        (dst ≤ j → j < dstEnd → j < sz → bcastLoopGo sz dstEnd v fuel f dst j = c) := by
  intro fuel
  induction fuel with
  | zero => intro f dst hf j; exact ⟨fun _ => rfl, fun h1 h2 _ => absurd h2 (by omega)⟩
  | succ fuel ih =>
    intro f dst hf j
    rw [bcastLoopGo]
    simp only [WORDBYTES]
    by_cases hc : dst + 8 < dstEnd
    · rw [if_pos hc]
      obtain ⟨ihOut, ihIn⟩ := ih (storeWordU sz f dst v) (dst + 8) (by omega) j
      constructor
      · intro hj
        rw [ihOut (by omega), storeWordU_apply, if_neg (by omega)]
      · intro h1 h2 h3
        by_cases hj8 : dst + 8 ≤ j
        · exact ihIn hj8 h2 h3
        · rw [ihOut (by omega), storeWordU_apply, if_pos ⟨h1, by omega, h3⟩]
          exact hv (j - dst) (by omega)
    · rw [if_neg hc]
      constructor
      · intro hj
        rw [storeWordU_apply, if_neg (by omega)]
      · intro h1 h2 h3
        rw [storeWordU_apply, if_pos ⟨h1, by omega, h3⟩]
        exact hv (j - dst) (by omega)

/-- Helper: on every path, the bytes `copy_match` writes at
`next .. next + length - 1` agree with the byte-by-byte reference copy. -/
theorem copyMatchBuf_refCopy (sz : Nat) (f : Nat → Nat) (next length offset : Nat)
    (ho1 : 1 ≤ offset) (ho2 : offset ≤ next)
    (hl1 : 1 ≤ length) (hla : next + length ≤ sz) :
    ∀ k, k < length →
      copyMatchBuf sz f next length offset (next + k) =
        refCopy sz f next (next - offset) length (next + k) := by
  intro k hk
  unfold copyMatchBuf
  simp only [WORDBYTES]
  split_ifs with h1 h2 h3 h4 h5
  · -- three-word fast path
    obtain ⟨hlen24, hoff8, _⟩ := h1
    rw [show next + 2 * 8 = next + 8 + 8 by omega,
      show next - offset + 2 * 8 = next - offset + 8 + 8 by omega,
      copyWordU_as_refCopy sz f (next - offset) next (by omega),
      copyWordU_as_refCopy sz _ (next - offset + 8) (next + 8) (by omega),
      copyWordU_as_refCopy sz _ (next - offset + 8 + 8) (next + 8 + 8) (by omega)]
    have hA : refCopy sz f next (next - offset) (8 + (8 + 8)) =
        refCopy sz
          (refCopy sz (refCopy sz f next (next - offset) 8) (next + 8) (next - offset + 8) 8)
          (next + 8 + 8) (next - offset + 8 + 8) 8 := by
      rw [refCopy_append, refCopy_append]
    rw [← hA]
    exact refCopy_agree sz length (8 + (8 + 8)) f next (next - offset) (next + k)
      (by omega) (by omega)
  · -- word-at-a-time path, loop entered
    unfold wordLoop
    obtain ⟨N, hEq, hCov⟩ := wordLoopGo_refCopy sz (next + length)
      (next + length - (next + 8)) (copyWordU sz f (next - offset) next)
      (next - offset + 8) (next + 8) (by omega) (by omega)
    rw [hEq, copyWordU_as_refCopy sz f (next - offset) next (by omega), ← refCopy_append]
    exact refCopy_agree sz length (8 + N) f next (next - offset) (next + k)
      (by omega) (by omega)
  · -- word-at-a-time path, single word
    rw [copyWordU_as_refCopy sz f (next - offset) next (by omega)]
    exact refCopy_agree sz length 8 f next (next - offset) (next + k) (by omega) (by omega)
  · -- broadcast path (offset = 1)
    subst h5
    unfold bcastLoop
    have hv : ∀ m < 8, byteAt (repeatByte (f (next - 1))) m = f (next - 1) % 256 :=
      fun m hm => byteAt_repeatByte (f (next - 1)) m hm
    have := (bcastLoopGo_const sz (next + length) (repeatByte (f (next - 1)))
      (f (next - 1) % 256) hv (next + length - next + 1) f next (by omega) (next + k)).2
      (by omega) (by omega) (by omega)
    rw [this, refCopy_off1 sz length f next k (by omega) hk (by omega)]
  · -- slow byte-wise path (near the word paths' region)
    obtain ⟨N, hEq, hCov⟩ := slowCopy_refCopy sz (next + length) f (next - offset) next
    rw [hEq]
    exact refCopy_agree sz length N f next (next - offset) (next + k) (by omega) (by omega)
  · -- slow byte-wise path (near the end of the buffer)
    obtain ⟨N, hEq, hCov⟩ := slowCopy_refCopy sz (next + length) f (next - offset) next
    rw [hEq]
    exact refCopy_agree sz length N f next (next - offset) (next + k) (by omega) (by omega)

/-- C2: under the documented preconditions (`offset ∈ [1, size]`,
`length ∈ [1, 258]`, `length ≤ available`), `copy_match(length, offset)`
completes, advances the write cursor by exactly `length`, and leaves the
window bytes at positions `next .. next + length - 1` equal to the result
of a byte-by-byte self-overlapping copy from `next - offset`, through every
fast path and the slow path alike. -/
theorem c2_copy_match_correct (w : Window) (length offset : Nat)
    (ho1 : 1 ≤ offset) (ho2 : offset ≤ w.size)
    (hl1 : 1 ≤ length) (hl2 : length ≤ 258) (hla : length ≤ w.avail) :
    (w.copyMatch length offset).isSome = true ∧
    ∀ w', w.copyMatch length offset = some w' →
      w'.next = w.next + length ∧
      ∀ k, k < length →
        w'.buf (w.next + k) =
          refCopy w.bufsize w.buf w.next (w.next - offset) length (w.next + k) := by
  have hsome : w.copyMatch length offset =
      some { w with
               firstRef := if w.firstRef > w.next - offset then w.next - offset else w.firstRef
               buf := copyMatchBuf w.bufsize w.buf w.next length offset
               next := w.next + length } := by
    unfold Window.copyMatch
    rw [if_pos ⟨ho2, hla, ho1⟩]
  refine ⟨by rw [hsome]; rfl, fun w' hw' => ?_⟩
  rw [hsome] at hw'
  cases Option.some.inj hw'
  refine ⟨rfl, fun k hk => ?_⟩
  have hle : w.next + length ≤ w.bufsize := by
    have := hla
    unfold Window.avail at this
    omega
  exact copyMatchBuf_refCopy w.bufsize w.buf w.next length offset ho1 ho2 hl1 hle k hk

/-- Witness for C2: `copy_match(4, 2)` on `c2Window` (three bytes written,
slow path) completes and advances the cursor from 3 to 7. -/
theorem c2_copy_match_correct_witness :
    (c2Window.copyMatch 4 2).isSome = true ∧ c2WindowResult.next = c2Window.next + 4 :=
  ⟨(c2_copy_match_correct c2Window 4 2 (by decide) (by decide) (by decide) (by decide)
      (by decide)).1,
   ((c2_copy_match_correct c2Window 4 2 (by decide) (by decide) (by decide) (by decide)
      (by decide)).2 c2WindowResult (by rfl)).1⟩

/-- Helper: the stored-block handler always aborts, because
`InputStream::size()` returns 0 and `do_uncompressed` asserts
`size() >= 4`. -/
theorem doUncompressed_always_aborts (inp : List Nat) (s : IS) (w : Window) :
    doUncompressed inp s w = none := by
  unfold doUncompressed IS.size
  simp

/-- C9: for every `InputStream` in every reachable state, `size()` returns 0:
it computes `in_end − in_end`, independent of the read cursor, so it never
reflects the number of unread bytes. -/
theorem c9_inputstream_size_always_zero (inlen : Nat) (s : IS) :
    IS.size inlen s = 0 :=
  Nat.sub_self inlen

/-- Helper: every `some` result of the decompressor model carries the
`LIBDEFLATE_SUCCESS` status and an unset `actualOut`. -/
theorem decompress_some_shape (inp : List Nat) (outCap blockFuel loopFuel : Nat)
    (r : DResult) (h : libdeflateDecompress inp outCap blockFuel loopFuel = some r) :
    r.status = LibdeflateResult.success ∧ r.actualOut = none := by
  unfold libdeflateDecompress at h
  obtain ⟨p, hp, h⟩ := Option.bind_eq_some.mp h
  obtain ⟨_, w⟩ := p
  obtain ⟨w2, hw2, h⟩ := Option.bind_eq_some.mp h
  cases h
  exact ⟨rfl, rfl⟩

/-- C8: whenever `libdeflate_deflate_decompress` returns to its caller
(rather than aborting on a failed assertion, undefined behaviour, or
nontermination — all modelled by `none`), the returned status is
`LIBDEFLATE_SUCCESS`; no execution path of the function returns `BAD_DATA`,
`SHORT_OUTPUT` or `INSUFFICIENT_SPACE`. -/
theorem c8_returns_only_success (inp : List Nat) (outCap blockFuel loopFuel : Nat) :
    ((libdeflateDecompress inp outCap blockFuel loopFuel).map
      (fun r => r.status)).getD LibdeflateResult.success = LibdeflateResult.success := by
  cases h : libdeflateDecompress inp outCap blockFuel loopFuel with
  | none => rfl
  | some r =>
    rw [Option.map_some', Option.getD_some]
    exact (decompress_some_shape inp outCap blockFuel loopFuel r h).1

/-- C5 (refuting theorem): on no input whatsoever does
`libdeflate_deflate_decompress` store the produced byte count through
`actual_out_nbytes_ret`: the parameter is unused in the source, so even a
successful decompression (for example of the fixed-Huffman stream
`73 04 00`, which produces one byte and returns `LIBDEFLATE_SUCCESS`)
leaves `*actual_out` unwritten, refuting the claim. -/
theorem c5_actual_out_never_written (inp : List Nat) (outCap blockFuel loopFuel : Nat) :
    ((libdeflateDecompress inp outCap blockFuel loopFuel).map
      (fun r => r.actualOut)).getD none = none := by
  cases h : libdeflateDecompress inp outCap blockFuel loopFuel with
  | none => rfl
  | some r =>
    rw [Option.map_some', Option.getD_some]
    exact (decompress_some_shape inp outCap blockFuel loopFuel r h).2

/-- C3 (refuting theorem): decompressing the canonical empty stored block
`01 00 00 FF FF` does not return `SUCCESS` with empty output: it aborts
(`none`), because `do_uncompressed` asserts `in_stream.size() >= 4` and
`InputStream::size()` always returns 0. -/
theorem c3_empty_stored_block_aborts :
    (libdeflateDecompress [0x01, 0x00, 0x00, 0xFF, 0xFF] 0 5 50).isSome = false := by
  decide

/-- C4 (refuting theorem): a block whose header carries the reserved block
type `BTYPE = 3` makes `do_block` hit `assert(false)` and abort; no
`BAD_DATA` status is returned to the caller. -/
theorem c4_reserved_block_type_aborts (inp : List Nat) (s : IS) (w : Window)
    (loopFuel bf : Nat) (s1 s2 : IS)
    (h1 : (IS.ensureBits inp (1 + 2 + 5 + 5 + 4) s).popBits 1 = some (bf, s1))
    (h2 : s1.popBits 2 = some (3, s2)) :
    doBlock inp s w loopFuel = none := by
  unfold doBlock
  simp [h1, h2, DEFLATE_BLOCKTYPE_DYNAMIC_HUFFMAN, DEFLATE_BLOCKTYPE_UNCOMPRESSED,
    DEFLATE_BLOCKTYPE_STATIC_HUFFMAN]

/-- Witness for C4: the one-byte input `07` (BFINAL = 1, BTYPE = 3) makes
`do_block` abort from the initial state. -/
theorem c4_reserved_block_type_aborts_witness :
    doBlock [0x07] ⟨0, 0, 0, 0⟩
      ⟨fun _ => 0, 2 ^ 20, 0, 0, 0, 0, 0, fun _ => 0, 0, 0⟩ 50 = none :=
  c4_reserved_block_type_aborts [0x07] ⟨0, 0, 0, 0⟩
    ⟨fun _ => 0, 2 ^ 20, 0, 0, 0, 0, 0, fun _ => 0, 0, 0⟩ 50 1
    ⟨3, 63, 7, 1⟩ ⟨0, 61, 7, 1⟩ (by decide) (by decide)

/-!
## Toolkit lemmas for the decode-table builder (C1, C6)
-/

/-- Power cancellation: `2^(a-c) * 2^c = 2^a` when `c ≤ a`. -/
theorem two_pow_sub_mul {a c : Nat} (h : c ≤ a) : 2 ^ (a - c) * 2 ^ c = 2 ^ a := by
  rw [← pow_add]
  congr 1
  omega

/-- Splitting a power of two along a sum of exponents. -/
theorem two_pow_split {a b c : Nat} (h : a + b = c) : (2 : Nat) ^ c = 2 ^ a * 2 ^ b := by
  rw [← pow_add, h]

/-- `List.set` then `getD`: the written value shows through exactly at an
in-bounds written index. -/
theorem list_getD_set (l : List Nat) (i j v : Nat) :
    (l.set i v).getD j 0 = if i = j ∧ j < l.length then v else l.getD j 0 := by
  induction l generalizing i j with
  | nil => simp
  | cons a as ih =>
    cases i with
    | zero =>
      cases j with
      | zero => simp
      | succ j' => simp
    | succ i' =>
      cases j with
      | zero => simp
      | succ j' =>
        simp only [List.set_cons_succ, List.getD_cons_succ, List.length_cons, ih i' j']
        by_cases h : i' = j' ∧ j' < as.length
        · rw [if_pos h, if_pos (by omega)]
        · rw [if_neg h, if_neg (by omega)]

/-- `getD` past the end of a list returns the default. -/
theorem list_getD_ge (l : List Nat) (j : Nat) (h : l.length ≤ j) : l.getD j 0 = 0 := by
  induction l generalizing j with
  | nil => simp
  | cons a as ih =>
    cases j with
    | zero => simp at h
    | succ j' =>
      simp only [List.getD_cons_succ]
      exact ih j' (by simpa using h)

/-- `getD` on `replicate _ 0` is 0. -/
theorem list_getD_replicate (n j : Nat) : (List.replicate n (0 : Nat)).getD j 0 = 0 := by
  induction n generalizing j with
  | zero => simp
  | succ n ih =>
    cases j with
    | zero => simp [List.replicate]
    | succ j' => simpa [List.replicate] using ih j'

/-- Congruence for `lsum` on its summation range. -/
theorem lsum_congr {f g : Nat → Nat} :
    ∀ {k n}, (∀ j, n ≤ j → j < n + k → f j = g j) → lsum f n k = lsum g n k := by
  intro k
  induction k with
  | zero => intro n _; rfl
  | succ k ih =>
    intro n h
    rw [lsum, lsum, h n (Nat.le_refl n) (by omega), ih (fun j h1 h2 => h j (by omega) (by omega))]

/-- `lsum` of the zero function. -/
theorem lsum_zero_fun : ∀ k n, lsum (fun _ => 0) n k = 0 := by
  intro k
  induction k with
  | zero => intro n; rfl
  | succ k ih => intro n; rw [lsum, ih]

/-- `lsum` of a function vanishing on the range. -/
theorem lsum_eq_zero {f : Nat → Nat} {k n : Nat}
    (h : ∀ j, n ≤ j → j < n + k → f j = 0) : lsum f n k = 0 := by
  rw [lsum_congr h, lsum_zero_fun]

/-- Splitting an `lsum` range. -/
theorem lsum_split (f : Nat → Nat) :
    ∀ k1 {n} (k2 : Nat), lsum f n (k1 + k2) = lsum f n k1 + lsum f (n + k1) k2 := by
  intro k1
  induction k1 with
  | zero => intro n k2; simp [lsum]
  | succ k1 ih =>
    intro n k2
    rw [show k1 + 1 + k2 = (k1 + k2) + 1 by omega, lsum, lsum, ih k2,
      show n + (k1 + 1) = n + 1 + k1 by omega]
    omega

/-- `lsum` distributes over pointwise addition. -/
theorem lsum_add (f g : Nat → Nat) :
    ∀ k n, lsum (fun j => f j + g j) n k = lsum f n k + lsum g n k := by
  intro k
  induction k with
  | zero => intro n; rfl
  | succ k ih => intro n; rw [lsum, lsum, lsum, ih]; omega

/-- `lsum` of a function supported on a single in-range point. -/
theorem lsum_single {f : Nat → Nat} :
    ∀ {k n m}, n ≤ m → m < n + k →
      (∀ j, n ≤ j → j < n + k → j ≠ m → f j = 0) → lsum f n k = f m := by
  intro k
  induction k with
  | zero => intro n m h1 h2 _; omega
  | succ k ih =>
    intro n m h1 h2 hz
    rw [lsum]
    by_cases hnm : n = m
    · subst hnm
      rw [lsum_eq_zero (fun j hj1 hj2 => hz j (by omega) (by omega) (by omega))]
      omega
    · rw [hz n (Nat.le_refl n) (by omega) hnm, Nat.zero_add]
      exact ih (by omega) (by omega) (fun j h1 h2 h3 => hz j (by omega) (by omega) h3)

/-- Reindexing an `lsum` by a constant shift. -/
theorem lsum_shift (f : Nat → Nat) (d : Nat) :
    ∀ k n, lsum f (d + n) k = lsum (fun j => f (d + j)) n k := by
  intro k
  induction k with
  | zero => intro n; rfl
  | succ k ih => intro n; rw [lsum, lsum, show d + n + 1 = d + (n + 1) by omega, ih]

/-- `lsum` of a pointwise product by a constant. -/
theorem lsum_mul (f : Nat → Nat) (c : Nat) :
    ∀ k n, lsum (fun j => f j * c) n k = lsum f n k * c := by
  intro k
  induction k with
  | zero => intro n; simp [lsum]
  | succ k ih => intro n; rw [lsum, lsum, ih, Nat.add_mul]

/-- `rev c l` is an `l`-bit value. -/
theorem rev_lt : ∀ l c, rev c l < 2 ^ l := by
  intro l
  induction l with
  | zero => intro c; simp [rev]
  | succ l ih =>
    intro c
    rw [rev]
    have h1 := ih (c / 2)
    have h2 : (2 : Nat) ^ (l + 1) = 2 * 2 ^ l := by rw [pow_succ]; ring
    rcases Nat.mod_two_eq_zero_or_one c with h | h <;> rw [h] <;> omega

/-- Reversal of zero. -/
theorem rev_zero : ∀ l, rev 0 l = 0 := by
  intro l
  induction l with
  | zero => rfl
  | succ l ih => rw [rev, ih]; simp

/-- `rev` only depends on the low `l` bits. -/
theorem rev_mod : ∀ l c, rev (c % 2 ^ l) l = rev c l := by
  intro l
  induction l with
  | zero => intro c; rfl
  | succ l ih =>
    intro c
    rw [rev, rev]
    have h1 : c % 2 ^ (l + 1) % 2 = c % 2 := by
      rw [Nat.mod_mod_of_dvd _ (dvd_pow_self 2 (Nat.succ_ne_zero l))]
    have h2 : c % 2 ^ (l + 1) / 2 = c / 2 % 2 ^ l := by
      rw [pow_succ, Nat.mod_mul_left_div_self]
    rw [h1, h2, ih]

/-- Splitting a reversal: the low `b` bits of `c` land in the high bits of
the result and the high `a` bits land in the low bits. -/
theorem rev_decomp : ∀ b a c, rev c (a + b) = rev (c / 2 ^ b) a + 2 ^ a * rev (c % 2 ^ b) b := by
  intro b
  induction b with
  | zero => intro a c; simp [rev]
  | succ b ih =>
    intro a c
    rw [show a + (b + 1) = (a + b) + 1 by omega, rev, ih a (c / 2)]
    rw [rev]
    have h1 : c % 2 ^ (b + 1) % 2 = c % 2 := by
      rw [Nat.mod_mod_of_dvd _ (dvd_pow_self 2 (Nat.succ_ne_zero b))]
    have h2 : c % 2 ^ (b + 1) / 2 = c / 2 % 2 ^ b := by
      rw [pow_succ, Nat.mod_mul_left_div_self]
    have h3 : c / 2 / 2 ^ b = c / 2 ^ (b + 1) := by
      rw [Nat.div_div_eq_div_mul, pow_succ, mul_comm 2 (2 ^ b)]
    rw [h1, h2, h3, pow_add]
    ring

/-- `rev` is injective on `l`-bit values. -/
theorem rev_inj : ∀ l c c', c < 2 ^ l → c' < 2 ^ l → rev c l = rev c' l → c = c' := by
  intro l
  induction l with
  | zero => intro c c' h1 h2 _; omega
  | succ l ih =>
    intro c c' h1 h2 heq
    rw [rev, rev] at heq
    have r1 := rev_lt l (c / 2)
    have r2 := rev_lt l (c' / 2)
    have hp : (2 : Nat) ^ (l + 1) = 2 * 2 ^ l := by rw [pow_succ]; ring
    have hmods : c % 2 = c' % 2 ∧ rev (c / 2) l = rev (c' / 2) l := by
      rcases Nat.mod_two_eq_zero_or_one c with h | h <;>
        rcases Nat.mod_two_eq_zero_or_one c' with h' | h' <;>
          rw [h, h'] at heq ⊢ <;> omega
    have := ih (c / 2) (c' / 2) (by omega) (by omega) hmods.2
    omega

/-- Appending `k` zero bits to a codeword does not change its reversal. -/
theorem rev_mul_pow (k l c : Nat) : rev (c * 2 ^ k) (l + k) = rev c l := by
  rw [rev_decomp k l (c * 2 ^ k), Nat.mul_div_cancel _ (Nat.two_pow_pos k),
    Nat.mul_mod_left, rev_zero, Nat.mul_zero, Nat.add_zero]

/-- The low `e` bits of `rev c L` are the reversal of the high `e` bits of
`c`. -/
theorem rev_mod_pow {e L : Nat} (c : Nat) (h : e ≤ L) :
    rev c L % 2 ^ e = rev (c / 2 ^ (L - e)) e := by
  obtain ⟨d, rfl⟩ : ∃ d, L = e + d := ⟨L - e, by omega⟩
  rw [show e + d - e = d by omega, rev_decomp d e c, Nat.add_mul_mod_self_left,
    Nat.mod_eq_of_lt (rev_lt e _)]

/-- The high bits of `rev c L` are the reversal of the low `L - tb` bits of
`c`. -/
theorem rev_shift {tb L : Nat} (c : Nat) (h : tb ≤ L) :
    rev c L / 2 ^ tb = rev (c % 2 ^ (L - tb)) (L - tb) := by
  obtain ⟨d, rfl⟩ : ∃ d, L = tb + d := ⟨L - tb, by omega⟩
  rw [show tb + d - tb = d by omega, rev_decomp d tb c,
    Nat.add_mul_div_left _ _ (Nat.two_pow_pos tb),
    Nat.div_eq_of_lt (rev_lt tb _), Nat.zero_add]

/-- Decode-table entries are `u32` values. -/
theorem mkEntry_lt (r l : Nat) : mkEntry r l < 2 ^ 32 :=
  Nat.mod_lt _ (by norm_num)

/-- Truncating an entry to 32 bits is the identity. -/
theorem mkEntry_mod (r l : Nat) : mkEntry r l % 2 ^ 32 = mkEntry r l :=
  Nat.mod_eq_of_lt (mkEntry_lt r l)

/-- For in-range fields an entry is plain positional arithmetic:
the result in bits 8 and up, the length in bits 0–7. -/
theorem mkEntry_eq {r l : Nat} (hr : r < 2 ^ 23) (hl : l < 2 ^ 8) :
    mkEntry r l = r * 2 ^ 8 + l := by
  unfold mkEntry
  rw [Nat.shiftLeft_eq, mul_comm r (2 ^ 8), ← Nat.mul_add_lt_is_or hl r]
  have h256 : (2 : Nat) ^ 8 = 256 := by norm_num
  have h223 : (2 : Nat) ^ 23 = 8388608 := by norm_num
  have h232 : (2 : Nat) ^ 32 = 4294967296 := by norm_num
  rw [Nat.mod_eq_of_lt (by omega), mul_comm]

/-- Reading the written slot of a packed `u32` array. -/
theorem tabRead_tabWrite_self (t i v : Nat) : tabRead (tabWrite t i v) i = v % 2 ^ 32 := by
  unfold tabRead tabWrite
  rw [Nat.shiftRight_eq_div_pow, Nat.shiftRight_eq_div_pow]
  have hsp : (2 : Nat) ^ (32 * (i + 1)) = 2 ^ (32 * i) * 2 ^ 32 :=
    two_pow_split (by ring)
  rw [hsp]
  have hre : t % 2 ^ (32 * i) + v % 2 ^ 32 * 2 ^ (32 * i) +
      t / (2 ^ (32 * i) * 2 ^ 32) * (2 ^ (32 * i) * 2 ^ 32) =
      t % 2 ^ (32 * i) +
        2 ^ (32 * i) * (v % 2 ^ 32 + 2 ^ 32 * (t / (2 ^ (32 * i) * 2 ^ 32))) := by
    ring
  rw [hre, Nat.add_mul_div_left _ _ (Nat.two_pow_pos (32 * i)),
    Nat.div_eq_of_lt (Nat.mod_lt _ (Nat.two_pow_pos (32 * i))), Nat.zero_add,
    Nat.add_mul_mod_self_left]
  exact Nat.mod_mod_of_dvd v (dvd_refl _)

/-- Reading an untouched slot of a packed `u32` array. -/
theorem tabRead_tabWrite_ne (t i v j : Nat) (h : j ≠ i) :
    tabRead (tabWrite t i v) j = tabRead t j := by
  unfold tabRead tabWrite
  rw [Nat.shiftRight_eq_div_pow, Nat.shiftRight_eq_div_pow, Nat.shiftRight_eq_div_pow]
  have hsp : (2 : Nat) ^ (32 * (i + 1)) = 2 ^ (32 * i) * 2 ^ 32 :=
    two_pow_split (by ring)
  rcases Nat.lt_or_ge j i with hj | hj
  · -- j < i: the write only changes bits at or above 32*i
    rw [← Nat.mod_mul_right_div_self, ← Nat.mod_mul_right_div_self]
    have hd : (2 : Nat) ^ (32 * j) * 2 ^ 32 ∣ 2 ^ (32 * i) := by
      rw [← pow_add 2 (32 * j) 32]
      exact pow_dvd_pow 2 (by omega)
    obtain ⟨m, hm⟩ := hd
    have hre : t % 2 ^ (32 * i) + v % 2 ^ 32 * 2 ^ (32 * i) +
        t / 2 ^ (32 * (i + 1)) * 2 ^ (32 * (i + 1)) =
        t % 2 ^ (32 * i) +
          (v % 2 ^ 32 * m + t / 2 ^ (32 * (i + 1)) * (m * 2 ^ 32)) *
            (2 ^ (32 * j) * 2 ^ 32) := by
      rw [hsp, hm]
      ring
    rw [hre, Nat.add_mul_mod_self_right, Nat.mod_mod_of_dvd _ ⟨m, hm⟩]
  · -- j > i: the write only changes bits below 32*(i+1)
    have hlow : t % 2 ^ (32 * i) + v % 2 ^ 32 * 2 ^ (32 * i) <
        2 ^ (32 * i) * 2 ^ 32 := by
      have h1 : t % 2 ^ (32 * i) < 2 ^ (32 * i) := Nat.mod_lt _ (Nat.two_pow_pos _)
      have h2 : v % 2 ^ 32 ≤ 2 ^ 32 - 1 := by
        have := Nat.mod_lt v (show 0 < 2 ^ 32 by norm_num)
        omega
      have h3 : v % 2 ^ 32 * 2 ^ (32 * i) ≤ (2 ^ 32 - 1) * 2 ^ (32 * i) :=
        Nat.mul_le_mul_right _ h2
      have h4 : (2 ^ 32 - 1) * 2 ^ (32 * i) + 2 ^ (32 * i) =
          2 ^ (32 * i) * 2 ^ 32 := by
        have h5 : (2 ^ 32 - 1) * 2 ^ (32 * i) + 2 ^ (32 * i) =
            (2 ^ 32 - 1 + 1) * 2 ^ (32 * i) := by ring
        rw [h5, show (2:Nat) ^ 32 - 1 + 1 = 2 ^ 32 by norm_num, mul_comm]
      omega
    have hXdiv : (t % 2 ^ (32 * i) + v % 2 ^ 32 * 2 ^ (32 * i) +
        t / 2 ^ (32 * (i + 1)) * 2 ^ (32 * (i + 1))) / 2 ^ (32 * (i + 1)) =
        t / 2 ^ (32 * (i + 1)) := by
      rw [Nat.add_mul_div_right _ _ (Nat.two_pow_pos (32 * (i + 1))),
        Nat.div_eq_of_lt (by rw [hsp]; exact hlow), Nat.zero_add]
    have hsplit : (2 : Nat) ^ (32 * j) = 2 ^ (32 * (i + 1)) * 2 ^ (32 * (j - i - 1)) :=
      two_pow_split (by omega)
    rw [hsplit, ← Nat.div_div_eq_div_mul, ← Nat.div_div_eq_div_mul, hXdiv]

/-- The fill loop never touches entries outside its arithmetic
progression `i, i + 2^k, i + 2·2^k, …` (below `endI`). -/
theorem fillEntriesGo_miss (entry endI k : Nat) :
    ∀ fuel i t w, (∀ u, i + u * 2 ^ k < endI → w ≠ i + u * 2 ^ k) →
      tabRead (fillEntriesGo entry endI k fuel t i) w = tabRead t w := by
  intro fuel
  induction fuel with
  | zero => intro i t w _; rfl
  | succ fuel ih =>
    intro i t w hw
    rw [fillEntriesGo]
    by_cases hi : i < endI
    · rw [if_pos hi, ih _ _ _ (fun u hu => by
        have := hw (u + 1)
        rw [show i + 2 ^ k + u * 2 ^ k = i + (u + 1) * 2 ^ k by ring] at hu ⊢
        exact this hu)]
      exact tabRead_tabWrite_ne t i entry w (by
        have := hw 0 (by simpa using hi)
        simpa using this)
    · rw [if_neg hi]

/-- The fill loop writes `entry` at every index of its progression. -/
theorem fillEntriesGo_hit (entry endI k : Nat) :
    ∀ fuel i t u, i + u * 2 ^ k < endI → endI ≤ i + fuel →
      tabRead (fillEntriesGo entry endI k fuel t i) (i + u * 2 ^ k) = entry % 2 ^ 32 := by
  intro fuel
  induction fuel with
  | zero =>
    intro i t u hu hf
    have := Nat.two_pow_pos k
    omega
  | succ fuel ih =>
    intro i t u hu hf
    have hpk := Nat.two_pow_pos k
    have hi : i < endI := by nlinarith
    rw [fillEntriesGo, if_pos hi]
    cases u with
    | zero =>
      rw [fillEntriesGo_miss entry endI k fuel (i + 2 ^ k) _ _ (fun u' hu' => by nlinarith)]
      simpa using tabRead_tabWrite_self t i entry
    | succ u' =>
      have : i + (u' + 1) * 2 ^ k = i + 2 ^ k + u' * 2 ^ k := by ring
      rw [this]
      exact ih (i + 2 ^ k) _ u' (by omega) (by omega)

/-- Every index the fill loop entry point is asked to fill is filled. -/
theorem fillEntries_hit (t entry i endI k u : Nat) (hu : i + u * 2 ^ k < endI) :
    tabRead (fillEntries t entry i endI k) (i + u * 2 ^ k) = entry % 2 ^ 32 :=
  fillEntriesGo_hit entry endI k (endI - i + 1) i t u hu (by omega)

/-- The fill loop entry point leaves all other indices unchanged. -/
theorem fillEntries_miss (t entry i endI k w : Nat)
    (hw : ∀ u, i + u * 2 ^ k < endI → w ≠ i + u * 2 ^ k) :
    tabRead (fillEntries t entry i endI k) w = tabRead t w :=
  fillEntriesGo_miss entry endI k (endI - i + 1) i t w hw

/-- A value below `2^L` has bit `L` clear. -/
theorem and_two_pow_of_lt {L r : Nat} (hr : r < 2 ^ L) : r &&& 2 ^ L = 0 := by
  rw [Nat.and_two_pow, Nat.testBit_lt_two_pow hr]
  simp

/-- `2^L + r` (with `r < 2^L`) has bit `L` set. -/
theorem and_two_pow_self_add {L r : Nat} (hr : r < 2 ^ L) :
    (2 ^ L + r) &&& 2 ^ L = 2 ^ L := by
  rw [Nat.and_two_pow]
  have ht := Nat.testBit_mul_pow_two_add 1 hr L
  rw [Nat.mul_one] at ht
  rw [ht, if_neg (Nat.lt_irrefl L), Nat.sub_self]
  simp [Nat.testBit]

/-- Masking with a value below `2^L` ignores an added `2^L` term. -/
theorem and_low_add_top {L r y : Nat} (hr : r < 2 ^ L) (hy : y < 2 ^ L) :
    (2 ^ L + r) &&& y = r &&& y := by
  apply Nat.eq_of_testBit_eq
  intro k
  rw [Nat.testBit_and, Nat.testBit_and]
  by_cases hk : k < L
  · have ht := Nat.testBit_mul_pow_two_add 1 hr k
    rw [Nat.mul_one] at ht
    rw [ht, if_pos hk]
  · have hyb : y.testBit k = false :=
      Nat.testBit_lt_two_pow
        (lt_of_lt_of_le hy (Nat.pow_le_pow_right (by norm_num) (by omega)))
    rw [hyb, Bool.and_false, Bool.and_false]

/-- The bit scan with a zero mask returns zero. -/
theorem bitScanGo_zero_bit (cw : Nat) : ∀ f, bitScanGo cw f 0 = 0 := by
  intro f
  cases f with
  | zero => rfl
  | succ f => rw [bitScanGo, if_pos rfl]

/-- The bit scan never returns more than its starting bit. -/
theorem bitScanGo_le (cw : Nat) : ∀ fuel bit, bitScanGo cw fuel bit ≤ bit := by
  intro fuel
  induction fuel with
  | zero => intro bit; exact Nat.le_refl _
  | succ fuel ih =>
    intro bit
    rw [bitScanGo]
    by_cases h0 : bit = 0
    · rw [if_pos h0]
      omega
    · rw [if_neg h0]
      by_cases h1 : cw &&& bit ≠ 0
      · rw [if_pos h1]
        exact le_trans (ih (bit / 2)) (Nat.div_le_self _ _)
      · rw [if_neg h1]

/-- With fuel at least `j + 2` the scan from bit `2^j` is fuel-independent. -/
theorem bitScanGo_fuel (cw : Nat) : ∀ j f1 f2, j + 2 ≤ f1 → j + 2 ≤ f2 →
    bitScanGo cw f1 (2 ^ j) = bitScanGo cw f2 (2 ^ j) := by
  intro j
  induction j with
  | zero =>
    intro f1 f2 h1 h2
    obtain ⟨g1, rfl⟩ : ∃ g, f1 = g + 1 := ⟨f1 - 1, by omega⟩
    obtain ⟨g2, rfl⟩ : ∃ g, f2 = g + 1 := ⟨f2 - 1, by omega⟩
    rw [bitScanGo, bitScanGo, if_neg (Nat.two_pow_pos 0).ne', if_neg (Nat.two_pow_pos 0).ne']
    by_cases h : cw &&& 2 ^ 0 ≠ 0
    · rw [if_pos h, if_pos h, show (2 : Nat) ^ 0 / 2 = 0 by norm_num,
        bitScanGo_zero_bit, bitScanGo_zero_bit]
    · rw [if_neg h, if_neg h]
  | succ j ih =>
    intro f1 f2 h1 h2
    obtain ⟨g1, rfl⟩ : ∃ g, f1 = g + 1 := ⟨f1 - 1, by omega⟩
    obtain ⟨g2, rfl⟩ : ∃ g, f2 = g + 1 := ⟨f2 - 1, by omega⟩
    rw [bitScanGo, bitScanGo, if_neg (Nat.two_pow_pos (j + 1)).ne',
      if_neg (Nat.two_pow_pos (j + 1)).ne']
    by_cases h : cw &&& 2 ^ (j + 1) ≠ 0
    · have hdiv : (2 : Nat) ^ (j + 1) / 2 = 2 ^ j := by
        rw [pow_succ, Nat.mul_div_cancel _ (by norm_num)]
      rw [if_pos h, if_pos h, hdiv]
      exact ih g1 g2 (by omega) (by omega)
    · rw [if_neg h, if_neg h]

/-- The scan below the top bit ignores an added `2^L` term. -/
theorem bitScanGo_add_top : ∀ j fuel L r, r < 2 ^ L → j < L →
    bitScanGo (2 ^ L + r) fuel (2 ^ j) = bitScanGo r fuel (2 ^ j) := by
  intro j
  induction j with
  | zero =>
    intro fuel L r hr hj
    cases fuel with
    | zero => rfl
    | succ fuel =>
      rw [bitScanGo, bitScanGo, if_neg (Nat.two_pow_pos 0).ne',
        if_neg (Nat.two_pow_pos 0).ne',
        and_low_add_top hr (Nat.pow_lt_pow_right (by norm_num) hj)]
      by_cases h : r &&& 2 ^ 0 ≠ 0
      · rw [if_pos h, if_pos h, show (2 : Nat) ^ 0 / 2 = 0 by norm_num,
          bitScanGo_zero_bit, bitScanGo_zero_bit]
      · rw [if_neg h, if_neg h]
  | succ j ih =>
    intro fuel L r hr hj
    cases fuel with
    | zero => rfl
    | succ fuel =>
      rw [bitScanGo, bitScanGo, if_neg (Nat.two_pow_pos (j + 1)).ne',
        if_neg (Nat.two_pow_pos (j + 1)).ne',
        and_low_add_top hr (by
          exact Nat.pow_lt_pow_right (by norm_num) hj)]
      by_cases h : r &&& 2 ^ (j + 1) ≠ 0
      · have hdiv : (2 : Nat) ^ (j + 1) / 2 = 2 ^ j := by
          rw [pow_succ, Nat.mul_div_cancel _ (by norm_num)]
        rw [if_pos h, if_pos h, hdiv]
        exact ih fuel L r hr (by omega)
      · rw [if_neg h, if_neg h]

/-- Equational form of `revInc`. -/
theorem revInc_eq (cw len : Nat) :
    revInc cw len =
      (cw &&& (if bitScanGo cw 65 (2 ^ (len - 1)) = 0 then 2 ^ 32 - 1
        else bitScanGo cw 65 (2 ^ (len - 1)) - 1)) ||| bitScanGo cw 65 (2 ^ (len - 1)) := by
  unfold revInc bitScan
  rw [Nat.shiftLeft_eq, one_mul]

/-- Correctness of the bit-reversed codeword increment: on the reversal of
a codeword `c` of length `L` (with `c + 1` still an `L`-bit value) it
produces the reversal of `c + 1`. -/
theorem revInc_rev : ∀ L, L < 32 → ∀ c, c + 1 < 2 ^ L → revInc (rev c L) L = rev (c + 1) L := by
  intro L
  induction L with
  | zero =>
    intro _ c h
    simp at h
  | succ L ih =>
    intro hL32 c h
    rw [revInc_eq, show L + 1 - 1 = L by omega]
    rcases Nat.mod_two_eq_zero_or_one c with hc | hc
    · -- c even: the top bit of the reversed codeword is clear
      have hrw : rev c (L + 1) = rev (c / 2) L := by rw [rev, hc]; simp
      have hlt : rev (c / 2) L < 2 ^ L := rev_lt L _
      have hscan : bitScanGo (rev (c / 2) L) 65 (2 ^ L) = 2 ^ L := by
        rw [show (65 : Nat) = 64 + 1 by norm_num, bitScanGo,
          if_neg (Nat.two_pow_pos L).ne',
          if_neg (fun hcon => hcon (and_two_pow_of_lt hlt))]
      rw [hrw, hscan, if_neg (Nat.two_pow_pos L).ne',
        Nat.and_pow_two_sub_one_eq_mod, Nat.mod_eq_of_lt hlt]
      have horz : rev (c / 2) L ||| 2 ^ L = 2 ^ L + rev (c / 2) L := by
        have hmo := Nat.mul_add_lt_is_or hlt 1
        rw [Nat.mul_one] at hmo
        rw [Nat.or_comm]
        exact hmo.symm
      rw [horz, rev, show (c + 1) % 2 = 1 by omega, show (c + 1) / 2 = c / 2 by omega,
        one_mul]
    · -- c odd: the top bit of the reversed codeword is set
      have hL1 : 1 ≤ L := by
        rcases Nat.eq_zero_or_pos L with h0 | h0
        · subst h0
          simp at h
          omega
        · exact h0
      have hlt : rev (c / 2) L < 2 ^ L := rev_lt L _
      have hrw : rev c (L + 1) = 2 ^ L + rev (c / 2) L := by rw [rev, hc, one_mul]
      obtain ⟨M, rfl⟩ : ∃ M, L = M + 1 := ⟨L - 1, by omega⟩
      have hdiv : (2 : Nat) ^ (M + 1) / 2 = 2 ^ M := by
        rw [pow_succ, Nat.mul_div_cancel _ (by norm_num)]
      have hscan : bitScanGo (2 ^ (M + 1) + rev (c / 2) (M + 1)) 65 (2 ^ (M + 1)) =
          bitScanGo (rev (c / 2) (M + 1)) 65 (2 ^ M) := by
        rw [show (65 : Nat) = 64 + 1 by norm_num, bitScanGo,
          if_neg (Nat.two_pow_pos (M + 1)).ne',
          if_pos (by rw [and_two_pow_self_add hlt]; exact (Nat.two_pow_pos (M + 1)).ne'),
          hdiv, bitScanGo_add_top M 64 (M + 1) _ hlt (by omega),
          bitScanGo_fuel _ M 64 65 (by omega) (by omega)]
      have hc2 : c / 2 + 1 < 2 ^ (M + 1) := by
        have hps : (2 : Nat) ^ (M + 1 + 1) = 2 * 2 ^ (M + 1) := by
          rw [pow_succ]; ring
        omega
      have hIH := ih (by omega) (c / 2) hc2
      rw [revInc_eq, show M + 1 - 1 = M by omega] at hIH
      rw [hrw, hscan]
      by_cases hb : bitScanGo (rev (c / 2) (M + 1)) 65 (2 ^ M) = 0
      · -- impossible: the increment would be the identity
        exfalso
        rw [if_pos hb, hb] at hIH
        have hr32 : rev (c / 2) (M + 1) < 2 ^ 32 :=
          lt_of_lt_of_le (rev_lt _ _) (Nat.pow_le_pow_right (by norm_num) (by omega))
        rw [Nat.and_pow_two_sub_one_eq_mod, Nat.mod_eq_of_lt hr32, Nat.or_zero] at hIH
        have := rev_inj (M + 1) (c / 2) (c / 2 + 1) (by omega) hc2 hIH
        omega
      · rw [if_neg hb] at hIH
        rw [if_neg hb]
        have hble : bitScanGo (rev (c / 2) (M + 1)) 65 (2 ^ M) ≤ 2 ^ M :=
          bitScanGo_le _ 65 (2 ^ M)
        have hmlt : bitScanGo (rev (c / 2) (M + 1)) 65 (2 ^ M) - 1 < 2 ^ (M + 1) := by
          have : (2 : Nat) ^ M < 2 ^ (M + 1) := Nat.pow_lt_pow_right (by norm_num) (by omega)
          omega
        have hR : rev (c + 1) (M + 1 + 1) = rev (c / 2 + 1) (M + 1) := by
          rw [rev, show (c + 1) % 2 = 0 by omega, show (c + 1) / 2 = c / 2 + 1 by omega,
            Nat.zero_mul, Nat.zero_add]
        rw [and_low_add_top hlt hmlt, hIH, hR]

/-- Mass is additive over concatenation. -/
theorem massUpTo_append (lens : List Nat) (maxLen : Nat) :
    ∀ a b : List Nat, massUpTo lens maxLen (a ++ b) =
      massUpTo lens maxLen a + massUpTo lens maxLen b := by
  intro a b
  induction a with
  | nil => simp [massUpTo]
  | cons s ss ih => rw [List.cons_append, massUpTo, massUpTo, ih]; omega

/-- Every member of `symsOfLen lens l` is an index with length `l`. -/
theorem symsOfLen_mem {lens : List Nat} {l s : Nat} (h : s ∈ symsOfLen lens l) :
    s < lens.length ∧ lens.getD s 0 = l := by
  unfold symsOfLen at h
  rw [List.mem_filter, List.mem_range] at h
  exact ⟨h.1, by simpa using h.2⟩

/-- The group of symbols with length `l` has `lens.count l` members. -/
theorem symsOfLen_length : ∀ (lens : List Nat) (l : Nat),
    (symsOfLen lens l).length = lens.count l := by
  intro lens
  induction lens with
  | nil => intro l; rfl
  | cons x xs ih =>
    intro l
    unfold symsOfLen
    rw [List.length_cons, List.range_succ_eq_map, List.filter_cons, List.count_cons]
    have hmap : (List.map (· + 1) (List.range xs.length)).filter
        (fun s => (x :: xs).getD s 0 == l) =
        List.map (· + 1) ((List.range xs.length).filter (fun s => xs.getD s 0 == l)) := by
      rw [List.filter_map]
      rfl
    by_cases hx : x = l
    · rw [if_pos (by simpa using hx), hmap, List.length_cons, List.length_map]
      have := ih l
      unfold symsOfLen at this
      rw [this]
      simp [hx]
    · rw [if_neg (by simpa using hx), hmap, List.length_map]
      have := ih l
      unfold symsOfLen at this
      rw [this]
      simp [hx]

/-- The length-counting fold preserves the accumulator length. -/
theorem countLens_foldl_length : ∀ (xs : List Nat) (acc : List Nat),
    (xs.foldl (fun cnts l => cnts.set l (cnts.getD l 0 + 1)) acc).length = acc.length := by
  intro xs
  induction xs with
  | nil => intro acc; rfl
  | cons x xs ih => intro acc; rw [List.foldl_cons, ih, List.length_set]

/-- The length-counting fold adds the multiset count of each in-range
value to the accumulator. -/
theorem countLens_foldl_getD : ∀ (xs : List Nat) (acc : List Nat) (l : Nat),
    (∀ x ∈ xs, x < acc.length) →
    (xs.foldl (fun cnts l => cnts.set l (cnts.getD l 0 + 1)) acc).getD l 0 =
      acc.getD l 0 + xs.count l := by
  intro xs
  induction xs with
  | nil => intro acc l _; simp
  | cons x xs ih =>
    intro acc l hmem
    rw [List.foldl_cons, ih (acc.set x (acc.getD x 0 + 1)) l
      (fun y hy => by rw [List.length_set]; exact hmem y (List.mem_cons_of_mem _ hy)),
      list_getD_set, List.count_cons]
    have hx : x < acc.length := hmem x (List.mem_cons_self _ _)
    by_cases hxl : x = l
    · rw [if_pos ⟨hxl, by omega⟩, if_pos (by simpa using hxl)]
      subst hxl
      omega
    · rw [if_neg (by omega), if_neg (by simpa using hxl)]
      omega

/-- `countLens` has `maxLen + 1` entries. -/
theorem countLens_length (lens : List Nat) (maxLen : Nat) :
    (countLens lens maxLen).length = maxLen + 1 := by
  unfold countLens
  rw [countLens_foldl_length, List.length_replicate]

/-- With all lengths in range, `countLens` stores each length's multiset
count (and reads as 0 beyond `maxLen`, where no length can occur). -/
theorem countLens_getD (lens : List Nat) (maxLen : Nat)
    (hlens : ∀ x ∈ lens, x ≤ maxLen) (l : Nat) :
    (countLens lens maxLen).getD l 0 = lens.count l := by
  by_cases hl : l ≤ maxLen
  · unfold countLens
    rw [countLens_foldl_getD lens _ l
      (fun x hx => by rw [List.length_replicate]; exact Nat.lt_succ_of_le (hlens x hx)),
      list_getD_replicate, Nat.zero_add]
  · rw [list_getD_ge _ _ (by rw [countLens_length]; omega)]
    rcases List.count_eq_zero.mpr (fun hmem => hl (hlens l hmem)) with h
    omega

/-- Members of `groupsFrom lens l m` are in-range symbols with lengths in
`[l, l + m)`. -/
theorem groupsFrom_mem {lens : List Nat} :
    ∀ m l s, s ∈ groupsFrom lens l m →
      l ≤ lens.getD s 0 ∧ lens.getD s 0 < l + m ∧ s < lens.length := by
  intro m
  induction m with
  | zero => intro l s h; simp [groupsFrom] at h
  | succ m ih =>
    intro l s h
    rw [groupsFrom, List.mem_append] at h
    rcases h with h | h
    · obtain ⟨hs, hlen⟩ := symsOfLen_mem h
      omega
    · have := ih (l + 1) s h
      omega

/-- `groupsFrom` is sorted by codeword length. -/
theorem groupsFrom_sorted {lens : List Nat} :
    ∀ m l, List.Pairwise (fun a b => lens.getD a 0 ≤ lens.getD b 0) (groupsFrom lens l m) := by
  intro m
  induction m with
  | zero => intro l; exact List.Pairwise.nil
  | succ m ih =>
    intro l
    rw [groupsFrom, List.pairwise_append]
    refine ⟨?_, ih (l + 1), ?_⟩
    · exact List.pairwise_of_forall_mem_list (fun a ha b hb => by
        rw [(symsOfLen_mem ha).2, (symsOfLen_mem hb).2])
    · intro a ha b hb
      rw [(symsOfLen_mem ha).2]
      exact (groupsFrom_mem m (l + 1) b hb).1.trans' (by omega)

/-- Filtering `groupsFrom` by one length extracts exactly that group. -/
theorem groupsFrom_filter {lens : List Nat} :
    ∀ m l l0, (groupsFrom lens l m).filter (fun s => lens.getD s 0 == l0) =
      if l ≤ l0 ∧ l0 < l + m then symsOfLen lens l0 else [] := by
  intro m
  induction m with
  | zero => intro l l0; rw [if_neg (by omega)]; rfl
  | succ m ih =>
    intro l l0
    rw [groupsFrom, List.filter_append, ih (l + 1) l0]
    by_cases hl : l = l0
    · subst hl
      rw [if_neg (by omega), if_pos (by omega), List.append_nil]
      exact List.filter_eq_self.mpr (fun s hs => by
        simp only [(symsOfLen_mem hs).2, beq_self_eq_true])
    · have hnil : (symsOfLen lens l).filter (fun s => lens.getD s 0 == l0) = [] :=
        List.filter_eq_nil_iff.mpr (fun s hs => by
          simp only [(symsOfLen_mem hs).2, beq_iff_eq]
          simpa using hl)
      rw [hnil, List.nil_append]
      by_cases hin : l + 1 ≤ l0 ∧ l0 < l + 1 + m
      · rw [if_pos hin, if_pos (by omega)]
      · rw [if_neg hin, if_neg (by omega)]

/-- The Kraft sum at level 0 is empty. -/
theorem kraftAt_zero_level : ∀ lens : List Nat, kraftAt 0 lens = 0 := by
  intro lens
  induction lens with
  | nil => rfl
  | cons x xs ih => rw [kraftAt, if_neg (by omega), ih]

/-- Level-step recurrence of the Kraft sum: doubling plus the new length's
count (the validation scan's remainder update). -/
theorem kraftAt_succ (l : Nat) : ∀ lens : List Nat,
    kraftAt (l + 1) lens = 2 * kraftAt l lens + lens.count (l + 1) := by
  intro lens
  induction lens with
  | nil => rfl
  | cons x xs ih =>
    rw [kraftAt, kraftAt, List.count_cons, ih]
    rcases Nat.lt_or_ge x 1 with hx | hx
    · rw [if_neg (by omega), if_neg (by omega), if_neg (by simp; omega)]
      omega
    · rcases Nat.lt_or_ge x (l + 1) with hxl | hxl
      · rw [if_pos (by omega), if_pos (by omega), if_neg (by simp; omega),
          show l + 1 - x = (l - x) + 1 by omega, pow_succ]
        ring_nf
      · rcases Nat.eq_or_lt_of_le hxl with hxe | hxe
        · rw [if_pos (by omega), if_neg (by omega), if_pos (by simp; omega),
            ← hxe, Nat.sub_self]
          ring_nf
        · rw [if_neg (by omega), if_neg (by omega), if_neg (by simp; omega)]
          omega

/-- Once the Kraft sum exceeds its level it keeps exceeding all later
levels (an over-subscribed code never becomes complete again). -/
theorem kraftAt_pump (lens : List Nat) (l : Nat) (h : 2 ^ l < kraftAt l lens) :
    ∀ d, 2 ^ (l + d) < kraftAt (l + d) lens := by
  intro d
  induction d with
  | zero => exact h
  | succ d ih =>
    rw [show l + (d + 1) = (l + d) + 1 by omega, kraftAt_succ, pow_succ]
    omega

/-- A vanishing `lsum` has vanishing terms. -/
theorem lsum_zero_mem {f : Nat → Nat} :
    ∀ {k n}, lsum f n k = 0 → ∀ j, n ≤ j → j < n + k → f j = 0 := by
  intro k
  induction k with
  | zero => intro n _ j h1 h2; omega
  | succ k ih =>
    intro n h j h1 h2
    rw [lsum] at h
    rcases Nat.eq_or_lt_of_le h1 with rfl | hlt
    · omega
    · have h2 : lsum f (n + 1) k = 0 := by omega
      exact ih h2 j (by omega) (by omega)

/-- Mass of the short-enough symbols, organized by length counts. -/
theorem mass_filter_counts (lens : List Nat) (maxLen : Nat) :
    ∀ (ss : List Nat) (m : Nat), (∀ s ∈ ss, 1 ≤ lens.getD s 0) →
      massUpTo lens maxLen (ss.filter (fun s => lens.getD s 0 ≤ m)) =
        lsum (fun l => (ss.filter (fun s => lens.getD s 0 == l)).length * 2 ^ (maxLen - l))
          1 m := by
  intro ss
  induction ss with
  | nil =>
    intro m _
    rw [show massUpTo lens maxLen ([].filter fun s => lens.getD s 0 ≤ m) = 0 from rfl]
    rw [lsum_eq_zero (fun j _ _ => by simp)]
  | cons s ss ih =>
    intro m hmem
    have hs1 : 1 ≤ lens.getD s 0 := hmem s (List.mem_cons_self _ _)
    have ihm := ih m (fun x hx => hmem x (List.mem_cons_of_mem _ hx))
    have hsplit : lsum (fun l =>
        ((s :: ss).filter (fun x => lens.getD x 0 == l)).length * 2 ^ (maxLen - l)) 1 m =
        lsum (fun l =>
          (ss.filter (fun x => lens.getD x 0 == l)).length * 2 ^ (maxLen - l) +
          (if l = lens.getD s 0 then 2 ^ (maxLen - l) else 0)) 1 m := by
      apply lsum_congr
      intro j _ _
      rw [List.filter_cons]
      by_cases hj : lens.getD s 0 = j
      · rw [if_pos (by simpa using hj), if_pos hj.symm, List.length_cons]
        ring
      · rw [if_neg (by simpa using hj), if_neg (fun hh => hj hh.symm)]
        simp
    have hdel : lsum (fun l => if l = lens.getD s 0 then 2 ^ (maxLen - l) else 0) 1 m =
        (if lens.getD s 0 ≤ m then 2 ^ (maxLen - lens.getD s 0) else 0) := by
      by_cases hle : lens.getD s 0 ≤ m
      · rw [if_pos hle, lsum_single hs1 (by omega) (fun j _ _ hj => by simp only [if_neg hj])]
        simp
      · rw [if_neg hle]
        exact lsum_eq_zero (fun j h1 h2 => by
          show (if j = lens.getD s 0 then 2 ^ (maxLen - j) else 0) = 0
          rw [if_neg (by omega)])
    by_cases hle : lens.getD s 0 ≤ m
    · rw [List.filter_cons, if_pos (by simpa using hle), massUpTo, hsplit, lsum_add,
        ihm, hdel, if_pos hle]
      omega
    · rw [List.filter_cons, if_neg (by simpa using hle), ihm]
      apply lsum_congr
      intro j h1 h2
      rw [List.filter_cons, if_neg (by simp only [beq_iff_eq]; omega)]

/-- The Kraft sum organized by length counts. -/
theorem kraft_counts (m : Nat) : ∀ lens : List Nat,
    kraftAt m lens = lsum (fun l => lens.count l * 2 ^ (m - l)) 1 m := by
  intro lens
  induction lens with
  | nil => rw [show kraftAt m [] = 0 from rfl, lsum_eq_zero (fun j _ _ => by simp)]
  | cons x xs ih =>
    rw [kraftAt, ih]
    have hsplit : lsum (fun l => (x :: xs).count l * 2 ^ (m - l)) 1 m =
        lsum (fun l => xs.count l * 2 ^ (m - l) +
          (if l = x then 2 ^ (m - l) else 0)) 1 m := by
      apply lsum_congr
      intro j h1 h2
      rw [List.count_cons]
      by_cases hj : x = j
      · rw [if_pos (by simpa using hj), if_pos hj.symm]
        ring
      · rw [if_neg (by simpa using hj), if_neg (fun hh => hj hh.symm)]
        simp
    have hdel : lsum (fun l => if l = x then 2 ^ (m - l) else 0) 1 m =
        (if 1 ≤ x ∧ x ≤ m then 2 ^ (m - x) else 0) := by
      by_cases hx : 1 ≤ x ∧ x ≤ m
      · rw [if_pos hx, lsum_single hx.1 (by omega) (fun j _ _ hj => by simp only [if_neg hj])]
        simp
      · rw [if_neg hx]
        exact lsum_eq_zero (fun j h1 h2 => by
          show (if j = x then 2 ^ (m - j) else 0) = 0
          rw [if_neg (by omega)])
    rw [hsplit, lsum_add, hdel]
    by_cases hx : 1 ≤ x ∧ x ≤ m
    · rw [if_pos hx]
      omega
    · rw [if_neg hx]
      omega

/-- The canonical symbol list filtered at one length is that length's
group. -/
theorem canonicalSyms_filter (lens : List Nat) (maxLen l : Nat)
    (h1 : 1 ≤ l) (h2 : l ≤ maxLen) :
    (canonicalSyms lens maxLen).filter (fun s => lens.getD s 0 == l) = symsOfLen lens l := by
  unfold canonicalSyms
  rw [groupsFrom_filter maxLen 1 l, if_pos (by omega)]

/-- Total mass of the canonical symbol list equals the Kraft sum. -/
theorem mass_canonical (lens : List Nat) (maxLen : Nat)
    (hlens : ∀ x ∈ lens, x ≤ maxLen) :
    massUpTo lens maxLen (canonicalSyms lens maxLen) = kraftAt maxLen lens := by
  have hmem : ∀ s ∈ canonicalSyms lens maxLen, 1 ≤ lens.getD s 0 :=
    fun s hs => (groupsFrom_mem maxLen 1 s hs).1
  have hall : (canonicalSyms lens maxLen).filter (fun s => lens.getD s 0 ≤ maxLen) =
      canonicalSyms lens maxLen :=
    List.filter_eq_self.mpr (fun s hs => by
      simp only [decide_eq_true_eq]
      have := groupsFrom_mem maxLen 1 s hs
      omega)
  rw [← hall, mass_filter_counts lens maxLen _ maxLen hmem, kraft_counts maxLen lens]
  apply lsum_congr
  intro j h1 h2
  rw [canonicalSyms_filter lens maxLen j h1 (by omega), symsOfLen_length]

/-- A zero Kraft sum means the code is completely empty. -/
theorem kraft_eq_zero_iff (lens : List Nat) (maxLen : Nat)
    (hlens : ∀ x ∈ lens, x ≤ maxLen) :
    kraftAt maxLen lens = 0 ↔ emptyCode lens := by
  induction lens with
  | nil => simp [kraftAt, emptyCode]
  | cons x xs ih =>
    have hx := hlens x (List.mem_cons_self _ _)
    have ihx := ih (fun y hy => hlens y (List.mem_cons_of_mem _ hy))
    rw [kraftAt]
    constructor
    · intro h
      have h0 : x = 0 := by
        by_contra hne
        rw [if_pos (by omega)] at h
        have := Nat.two_pow_pos (maxLen - x)
        omega
      rw [if_neg (by omega), Nat.zero_add] at h
      intro y hy
      rcases List.mem_cons.mp hy with rfl | hy'
      · exact h0
      · exact (ihx.mp h) y hy'
    · intro h
      have h0 : x = 0 := h x (List.mem_cons_self _ _)
      rw [if_neg (by omega), Nat.zero_add]
      exact ihx.mpr (fun y hy => h y (List.mem_cons_of_mem _ hy))

/-- Kraft sum of a code whose lengths are all at most 1. -/
theorem kraft_of_le_one (maxLen : Nat) (hm : 1 ≤ maxLen) : ∀ lens : List Nat,
    (∀ x ∈ lens, x ≤ 1) → kraftAt maxLen lens = lens.count 1 * 2 ^ (maxLen - 1) := by
  intro lens
  induction lens with
  | nil => intro _; simp [kraftAt]
  | cons x xs ih =>
    intro h
    have hx := h x (List.mem_cons_self _ _)
    rw [kraftAt, List.count_cons, ih (fun y hy => h y (List.mem_cons_of_mem _ hy))]
    rcases Nat.lt_or_ge x 1 with h0 | h1
    · rw [if_neg (by omega), if_neg (by simp only [beq_iff_eq]; omega)]
      simp
    · rw [if_pos (by omega), if_pos (by simp only [beq_iff_eq]; omega),
        show x = 1 by omega]
      ring

/-- The accepted nonempty incomplete case, characterized by the remainder
test of the source: `remainder = 2^(maxLen-1)` and `len_counts[1] = 1`. -/
theorem single1_iff (lens : List Nat) (maxLen : Nat)
    (hlens : ∀ x ∈ lens, x ≤ maxLen) (hm : 1 ≤ maxLen) :
    (kraftAt maxLen lens = 2 ^ (maxLen - 1) ∧ lens.count 1 = 1) ↔ singleLen1Code lens := by
  constructor
  · rintro ⟨hk, hc⟩
    refine ⟨hc, ?_⟩
    -- the count-1 contribution already fills the whole sum
    rcases Nat.exists_eq_add_of_le hm with ⟨k, hk'⟩
    have hm1 : maxLen = k + 1 := by omega
    subst hm1
    rw [kraft_counts (k + 1) lens] at hk
    have hunf : lsum (fun l => lens.count l * 2 ^ (k + 1 - l)) 1 (k + 1) =
        lens.count 1 * 2 ^ (k + 1 - 1) +
          lsum (fun l => lens.count l * 2 ^ (k + 1 - l)) 2 k := by
      rw [lsum]
    rw [hunf, hc, one_mul] at hk
    have hz : lsum (fun l => lens.count l * 2 ^ (k + 1 - l)) 2 k = 0 := by omega
    intro x hx
    by_contra hgt
    have hx2 : 2 ≤ x := by omega
    have hxm := hlens x hx
    have hterm : lens.count x * 2 ^ (k + 1 - x) = 0 :=
      lsum_zero_mem hz x hx2 (by omega)
    have hcx : lens.count x = 0 := by
      have hp := Nat.two_pow_pos (k + 1 - x)
      rcases Nat.mul_eq_zero.mp hterm with h | h
      · exact h
      · omega
    exact (List.count_eq_zero.mp hcx) hx
  · rintro ⟨hc, hle⟩
    exact ⟨by rw [kraft_of_le_one maxLen hm lens hle, hc, one_mul], hc⟩

/-- One-level unfolding of the validation scan. -/
theorem validateRem_succ (counts : List Nat) (m : Nat) :
    validateRem counts (m + 1) =
      (validateRem counts m).bind (fun rem =>
        if 2 * rem - (counts.getD (m + 1) 0 : Int) < 0 then none
        else some (2 * rem - (counts.getD (m + 1) 0 : Int))) := by
  unfold validateRem
  rw [List.range_succ, List.foldlM_append]
  simp

/-- The validation scan succeeds iff no level is over-subscribed, and then
returns `2^maxLen` minus the Kraft sum. -/
theorem validateRem_eq (lens : List Nat) (counts : List Nat)
    (hc : ∀ l, 1 ≤ l → counts.getD l 0 = lens.count l) :
    ∀ m, validateRem counts m =
      if ∀ l, 1 ≤ l → l ≤ m → kraftAt l lens ≤ 2 ^ l then
        some ((2 ^ m : Int) - kraftAt m lens)
      else none := by
  intro m
  induction m with
  | zero =>
    rw [if_pos (fun l h1 h2 => by omega)]
    unfold validateRem
    simp [kraftAt_zero_level]
  | succ m ih =>
    rw [validateRem_succ, ih]
    have hcm : (counts.getD (m + 1) 0 : Int) = (lens.count (m + 1) : Int) := by
      rw [hc (m + 1) (by omega)]
    have hrec : kraftAt (m + 1) lens = 2 * kraftAt m lens + lens.count (m + 1) :=
      kraftAt_succ m lens
    have hA : ((2 : Int)) ^ (m + 1) = 2 * 2 ^ m := by ring
    have hB : ((kraftAt (m + 1) lens : Nat) : Int) =
        2 * (kraftAt m lens : Int) + (lens.count (m + 1) : Int) := by
      exact_mod_cast hrec
    have hcast : (((2 : Nat) ^ m : Nat) : Int) = (2 : Int) ^ m := by push_cast; ring
    have hcast1 : (((2 : Nat) ^ (m + 1) : Nat) : Int) = (2 : Int) ^ (m + 1) := by
      push_cast; ring
    by_cases hok : ∀ l, 1 ≤ l → l ≤ m → kraftAt l lens ≤ 2 ^ l
    · rw [if_pos hok, Option.some_bind]
      by_cases hneg : 2 * ((2 ^ m : Int) - (kraftAt m lens : Int)) -
          (counts.getD (m + 1) 0 : Int) < 0
      · rw [if_pos hneg, if_neg]
        intro hall
        have hv := hall (m + 1) (by omega) (le_refl _)
        rw [hcm] at hneg
        omega
      · rw [if_neg hneg, if_pos]
        · congr 1
          rw [hcm] at *
          omega
        · intro l h1 h2
          rcases Nat.lt_or_ge l (m + 1) with hl | hl
          · exact hok l h1 (by omega)
          · have hl' : l = m + 1 := by omega
            subst hl'
            rw [hcm] at hneg
            omega
    · rw [if_neg hok, if_neg (fun hall => hok (fun l h1 h2 => hall l h1 (by omega)))]
      rfl

/-- `getD` through `drop`. -/
theorem list_getD_drop (l : List Nat) : ∀ n j, (l.drop n).getD j 0 = l.getD (n + j) 0 := by
  induction l with
  | nil => intro n j; simp
  | cons x xs ih =>
    intro n j
    cases n with
    | zero => simp
    | succ n =>
      rw [List.drop_succ_cons, ih n j, show n + 1 + j = (n + j) + 1 by omega,
        List.getD_cons_succ]

/-- `getD` through `take` (in range). -/
theorem list_getD_take (l : List Nat) (n j : Nat) (h : j < n) :
    (l.take n).getD j 0 = l.getD j 0 := by
  rw [List.getD_eq_getElem?_getD, List.getD_eq_getElem?_getD, List.getElem?_take_of_lt h]

/-- An in-range `getD` produces a member of the list. -/
theorem list_getD_mem : ∀ (l : List Nat) (k : Nat), k < l.length → l.getD k 0 ∈ l := by
  intro l
  induction l with
  | nil => intro k h; simp at h
  | cons x xs ih =>
    intro k h
    cases k with
    | zero => exact List.mem_cons_self _ _
    | succ k =>
      rw [List.getD_cons_succ]
      exact List.mem_cons_of_mem _ (ih k (by simpa using h))

/-- One-step recurrence of `cntBelow`. -/
theorem cntBelow_succ (lens : List Nat) (k l : Nat) :
    cntBelow lens (k + 1) l = cntBelow lens k l + (if lens.getD k 0 = l then 1 else 0) := by
  unfold cntBelow
  rw [List.range_succ, List.filter_append, List.length_append]
  by_cases h : lens.getD k 0 = l
  · rw [if_pos h, List.filter_cons, if_pos (by simp only [h, beq_self_eq_true])]
    rfl
  · rw [if_neg h, List.filter_cons, if_neg (by simp only [beq_iff_eq]; exact h)]
    rfl

/-- `cntBelow` is monotone in the index bound. -/
theorem cntBelow_mono (lens : List Nat) (l : Nat) {k K : Nat} (h : k ≤ K) :
    cntBelow lens k l ≤ cntBelow lens K l := by
  obtain ⟨b, rfl⟩ : ∃ b, K = k + b := ⟨K - k, by omega⟩
  clear h
  induction b with
  | zero => exact Nat.le_refl _
  | succ b ih =>
    rw [show k + (b + 1) = (k + b) + 1 by omega, cntBelow_succ]
    omega

/-- All symbols counted: `cntBelow` at the list length is the full group
size. -/
theorem cntBelow_length (lens : List Nat) (l : Nat) :
    cntBelow lens lens.length l = lens.count l := by
  rw [show cntBelow lens lens.length l = (symsOfLen lens l).length from rfl,
    symsOfLen_length]

/-- One-step recurrence of the offset prefix sums. -/
theorem offsAt_succ (counts : List Nat) (l : Nat) :
    offsAt counts (l + 1) = offsAt counts l + counts.getD l 0 := by
  unfold offsAt
  rw [lsum_split _ l 1, show 0 + l = l by omega, lsum, lsum]
  omega

/-- The offset prefix sums are monotone. -/
theorem offsAt_mono (counts : List Nat) {a b : Nat} (h : a ≤ b) :
    offsAt counts a ≤ offsAt counts b := by
  obtain ⟨d, rfl⟩ : ∃ d, b = a + d := ⟨b - a, by omega⟩
  clear h
  induction d with
  | zero => exact Nat.le_refl _
  | succ d ih =>
    rw [show a + (d + 1) = (a + d) + 1 by omega, offsAt_succ]
    omega

/-- The total of all length counts is the number of symbols. -/
theorem count_total (maxLen : Nat) : ∀ lens : List Nat, (∀ x ∈ lens, x ≤ maxLen) →
    lsum (fun j => lens.count j) 0 (maxLen + 1) = lens.length := by
  intro lens
  induction lens with
  | nil =>
    intro _
    rw [lsum_eq_zero (fun j _ _ => by simp)]
    rfl
  | cons x xs ih =>
    intro h
    have hx := h x (List.mem_cons_self _ _)
    have ihx := ih (fun y hy => h y (List.mem_cons_of_mem _ hy))
    have hdel : lsum (fun j => if j = x then 1 else 0) 0 (maxLen + 1) = 1 := by
      rw [lsum_single (Nat.zero_le x) (by omega) (fun j _ _ hj => by simp only [if_neg hj])]
      simp
    have hsplit : lsum (fun j => (x :: xs).count j) 0 (maxLen + 1) =
        lsum (fun j => xs.count j + (if j = x then 1 else 0)) 0 (maxLen + 1) := by
      apply lsum_congr
      intro j _ _
      rw [List.count_cons]
      by_cases hj : x = j
      · rw [if_pos (by simpa using hj), if_pos hj.symm]
      · rw [if_neg (by simpa using hj), if_neg (fun hh => hj hh.symm)]
    rw [hsplit, lsum_add, hdel, ihx, List.length_cons]

/-- At the list length, the offsets reach the total symbol count. -/
theorem offsAt_total (lens : List Nat) (maxLen : Nat)
    (hlens : ∀ x ∈ lens, x ≤ maxLen) :
    offsAt (countLens lens maxLen) (maxLen + 1) = lens.length := by
  unfold offsAt
  rw [lsum_congr (fun j _ _ => by rw [countLens_getD lens maxLen hlens j]),
    count_total maxLen lens hlens]

/-- `offsetsOf` appends one prefix sum per level. -/
theorem offsetsOf_succ (counts : List Nat) (m : Nat) :
    offsetsOf counts (m + 1) = offsetsOf counts m ++
      [(offsetsOf counts m).getD m 0 + counts.getD m 0] := by
  unfold offsetsOf
  rw [List.range_succ, List.foldl_append, List.foldl_cons, List.foldl_nil]

/-- `offsetsOf` builds the prefix-sum table of the length counts. -/
theorem offsetsOf_spec (counts : List Nat) : ∀ m,
    (offsetsOf counts m).length = m + 1 ∧
    ∀ l, l ≤ m → (offsetsOf counts m).getD l 0 = offsAt counts l := by
  intro m
  induction m with
  | zero =>
    refine ⟨rfl, ?_⟩
    intro l hl
    interval_cases l
    rfl
  | succ m ih =>
    rw [offsetsOf_succ]
    refine ⟨by rw [List.length_append, ih.1]; rfl, ?_⟩
    intro l hl
    rcases Nat.lt_or_ge l (m + 1) with hlm | hlm
    · rw [List.getD_append _ _ _ _ (by rw [ih.1]; omega), ih.2 l (by omega)]
    · have hl' : l = m + 1 := by omega
      subst hl'
      rw [List.getD_append_right _ _ _ _ (by rw [ih.1]), ih.1,
        show m + 1 - (m + 1) = 0 by omega, ih.2 m (by omega), offsAt_succ]
      rfl

/-- In-range `getElem` agrees with `getD`. -/
theorem list_getElem_eq_getD (l : List Nat) (j : Nat) (h : j < l.length) :
    l[j] = l.getD j 0 := by
  rw [List.getD_eq_getElem?_getD, List.getElem?_eq_getElem h]
  rfl

/-- One-step recurrence of the counting-sort state. -/
theorem sortedPassAt_succ (lens offs0 : List Nat) (k : Nat) :
    sortedPassAt lens offs0 (k + 1) =
      ((sortedPassAt lens offs0 k).1.set (lens.getD k 0)
          ((sortedPassAt lens offs0 k).1.getD (lens.getD k 0) 0 + 1),
        (sortedPassAt lens offs0 k).2.set
          ((sortedPassAt lens offs0 k).1.getD (lens.getD k 0) 0) k) := by
  unfold sortedPassAt
  rw [List.range_succ, List.foldl_append, List.foldl_cons, List.foldl_nil]

/-- Loop invariant of the counting sort: after processing symbols
`0..k-1`, each `offsets[l]` has advanced by the number of processed
symbols of length `l`, and the slots of each length-`l` region hold the
processed symbols of that length in increasing symbol order. -/
theorem sortedPassAt_inv (lens : List Nat) (maxLen : Nat)
    (hlens : ∀ x ∈ lens, x ≤ maxLen) :
    ∀ k, k ≤ lens.length →
      (sortedPassAt lens (offsetsOf (countLens lens maxLen) maxLen) k).1.length =
          maxLen + 1 ∧
      (sortedPassAt lens (offsetsOf (countLens lens maxLen) maxLen) k).2.length =
          lens.length ∧
      (∀ l, l ≤ maxLen →
        (sortedPassAt lens (offsetsOf (countLens lens maxLen) maxLen) k).1.getD l 0 =
          offsAt (countLens lens maxLen) l + cntBelow lens k l) ∧
      (∀ l j, l ≤ maxLen → j < cntBelow lens k l →
        (sortedPassAt lens (offsetsOf (countLens lens maxLen) maxLen) k).2.getD
            (offsAt (countLens lens maxLen) l + j) 0 =
          ((List.range k).filter (fun s => lens.getD s 0 == l)).getD j 0) := by
  intro k
  induction k with
  | zero =>
    intro _
    have h0 := offsetsOf_spec (countLens lens maxLen) maxLen
    refine ⟨h0.1, List.length_replicate _ _, ?_, ?_⟩
    · intro l hl
      show (offsetsOf (countLens lens maxLen) maxLen).getD l 0 =
        offsAt (countLens lens maxLen) l + cntBelow lens 0 l
      rw [h0.2 l hl, show cntBelow lens 0 l = 0 from rfl]
      omega
    · intro l j hl hj
      rw [show cntBelow lens 0 l = 0 from rfl] at hj
      omega
  | succ k ih =>
    intro hk1
    obtain ⟨hOL, hAL, hOF, hAR⟩ := ih (by omega)
    have hkl : k < lens.length := by omega
    have hl0 : lens.getD k 0 ≤ maxLen := hlens _ (list_getD_mem lens k hkl)
    have hov : (sortedPassAt lens (offsetsOf (countLens lens maxLen) maxLen) k).1.getD
        (lens.getD k 0) 0 =
        offsAt (countLens lens maxLen) (lens.getD k 0) + cntBelow lens k (lens.getD k 0) :=
      hOF _ hl0
    have hcnt_lt : cntBelow lens k (lens.getD k 0) < lens.count (lens.getD k 0) := by
      have h1 : cntBelow lens (k + 1) (lens.getD k 0) ≤
          cntBelow lens lens.length (lens.getD k 0) :=
        cntBelow_mono lens (lens.getD k 0) (by omega)
      rw [cntBelow_length] at h1
      rw [cntBelow_succ, if_pos rfl] at h1
      omega
    have hcountsl : ∀ l, (countLens lens maxLen).getD l 0 = lens.count l :=
      countLens_getD lens maxLen hlens
    have ho_num : ∀ l, l ≤ maxLen →
        offsAt (countLens lens maxLen) (l + 1) ≤ lens.length := by
      intro l hl
      rw [← offsAt_total lens maxLen hlens]
      exact offsAt_mono _ (by omega)
    rw [sortedPassAt_succ]
    refine ⟨by rw [List.length_set, hOL], by rw [List.length_set, hAL], ?_, ?_⟩
    · -- offsets update
      intro l hl
      rw [list_getD_set, cntBelow_succ]
      by_cases hll : lens.getD k 0 = l
      · rw [if_pos ⟨hll, by omega⟩, if_pos hll, hov, hll]
        omega
      · rw [if_neg (by omega), if_neg hll, hOF l hl]
        omega
    · -- array update
      intro l j hl hj
      rw [cntBelow_succ] at hj
      rw [hov, list_getD_set, List.range_succ, List.filter_append]
      by_cases hll : lens.getD k 0 = l
      · subst hll
        rw [if_pos rfl] at hj
        have hflen : ((List.range k).filter
            (fun s => lens.getD s 0 == lens.getD k 0)).length =
            cntBelow lens k (lens.getD k 0) := rfl
        have hfk : [k].filter (fun s => lens.getD s 0 == lens.getD k 0) = [k] := by
          rw [List.filter_cons, if_pos (by simp only [beq_self_eq_true])]
          rfl
        rcases Nat.lt_or_ge j (cntBelow lens k (lens.getD k 0)) with hjlt | hjge
        · rw [if_neg (by omega), hAR _ j hl0 hjlt,
            List.getD_append _ _ _ _ (by rw [hflen]; omega)]
        · have hje : j = cntBelow lens k (lens.getD k 0) := by omega
          subst hje
          rw [if_pos ⟨rfl, by
              rw [hAL]
              have := ho_num _ hl0
              rw [offsAt_succ, hcountsl] at this
              omega⟩,
            List.getD_append_right _ _ _ _ (by rw [hflen]), hfk, hflen, Nat.sub_self]
          rfl
      · rw [if_neg hll] at hj
        have hfk : [k].filter (fun s => lens.getD s 0 == l) = [] := by
          rw [List.filter_cons, if_neg (by simp only [beq_iff_eq]; exact hll)]
          rfl
        have hcnt_le : cntBelow lens k l ≤ lens.count l := by
          have := cntBelow_mono lens l (le_of_lt hkl)
          rw [cntBelow_length] at this
          exact le_trans (cntBelow_mono lens l (Nat.le_refl k)) this
        have hne : offsAt (countLens lens maxLen) l + j ≠
            offsAt (countLens lens maxLen) (lens.getD k 0) +
              cntBelow lens k (lens.getD k 0) := by
          rcases Nat.lt_or_ge l (lens.getD k 0) with hlk | hlk
          · -- the write position is at or beyond the start of a later region
            have h1 : offsAt (countLens lens maxLen) l + j <
                offsAt (countLens lens maxLen) (l + 1) := by
              rw [offsAt_succ, hcountsl]
              omega
            have h2 : offsAt (countLens lens maxLen) (l + 1) ≤
                offsAt (countLens lens maxLen) (lens.getD k 0) :=
              offsAt_mono _ (by omega)
            omega
          · have hlk' : lens.getD k 0 < l := by omega
            have h1 : offsAt (countLens lens maxLen) (lens.getD k 0) +
                cntBelow lens k (lens.getD k 0) <
                offsAt (countLens lens maxLen) (lens.getD k 0 + 1) := by
              rw [offsAt_succ, hcountsl]
              omega
            have h2 : offsAt (countLens lens maxLen) (lens.getD k 0 + 1) ≤
                offsAt (countLens lens maxLen) l :=
              offsAt_mono _ (by omega)
            omega
        rw [if_neg (by intro hcon; exact hne hcon.1.symm), hAR l j hl hj, hfk,
          List.append_nil]

/-- Dropping the length-0 region (and each further region) of the sorted
array leaves exactly the canonical groups from that length on. -/
theorem sortedPass_drop_seg (lens : List Nat) (maxLen : Nat)
    (hlens : ∀ x ∈ lens, x ≤ maxLen) :
    ∀ d, d ≤ maxLen + 1 →
      (sortedPassAt lens (offsetsOf (countLens lens maxLen) maxLen) lens.length).2.drop
          (offsAt (countLens lens maxLen) (maxLen + 1 - d)) =
        groupsFrom lens (maxLen + 1 - d) d := by
  obtain ⟨hOL, hAL, hOF, hAR⟩ := sortedPassAt_inv lens maxLen hlens lens.length (Nat.le_refl _)
  intro d
  induction d with
  | zero =>
    intro _
    rw [show maxLen + 1 - 0 = maxLen + 1 by omega,
      List.drop_of_length_le (by rw [hAL, offsAt_total lens maxLen hlens])]
    rfl
  | succ d ihd =>
    intro hd
    have ihd' := ihd (by omega)
    have hl : maxLen + 1 - (d + 1) = maxLen - d := by omega
    have hl1 : maxLen + 1 - d = (maxLen - d) + 1 := by omega
    rw [hl]
    rw [hl1] at ihd'
    have hlm : maxLen - d ≤ maxLen := by omega
    have hseg_end : offsAt (countLens lens maxLen) ((maxLen - d) + 1) ≤ lens.length := by
      rw [← offsAt_total lens maxLen hlens]
      exact offsAt_mono _ (by omega)
    have hcnt : (countLens lens maxLen).getD (maxLen - d) 0 = lens.count (maxLen - d) :=
      countLens_getD lens maxLen hlens _
    have hseg : (sortedPassAt lens (offsetsOf (countLens lens maxLen) maxLen)
        lens.length).2.drop (offsAt (countLens lens maxLen) (maxLen - d)) =
        ((sortedPassAt lens (offsetsOf (countLens lens maxLen) maxLen)
          lens.length).2.drop (offsAt (countLens lens maxLen) (maxLen - d))).take
            (lens.count (maxLen - d)) ++
        (sortedPassAt lens (offsetsOf (countLens lens maxLen) maxLen)
          lens.length).2.drop (offsAt (countLens lens maxLen) ((maxLen - d) + 1)) := by
      have h0 := (List.take_append_drop (lens.count (maxLen - d))
        ((sortedPassAt lens (offsetsOf (countLens lens maxLen) maxLen)
          lens.length).2.drop (offsAt (countLens lens maxLen) (maxLen - d)))).symm
      rw [List.drop_drop,
        show offsAt (countLens lens maxLen) (maxLen - d) + lens.count (maxLen - d) =
          offsAt (countLens lens maxLen) ((maxLen - d) + 1) from by
          rw [offsAt_succ, hcnt]] at h0
      exact h0
    have htake : ((sortedPassAt lens (offsetsOf (countLens lens maxLen) maxLen)
        lens.length).2.drop (offsAt (countLens lens maxLen) (maxLen - d))).take
          (lens.count (maxLen - d)) = symsOfLen lens (maxLen - d) := by
      apply List.ext_getElem
      · rw [List.length_take, List.length_drop, hAL, symsOfLen_length]
        rw [offsAt_succ, hcnt] at hseg_end
        omega
      · intro j hj1 hj2
        rw [list_getElem_eq_getD _ _ hj1, list_getElem_eq_getD _ _ hj2]
        have hjc : j < lens.count (maxLen - d) := by
          rw [symsOfLen_length] at hj2
          exact hj2
        rw [list_getD_take _ _ _ hjc, list_getD_drop,
          hAR (maxLen - d) j hlm (by rw [cntBelow_length]; exact hjc)]
        rfl
    rw [hseg, htake, ihd', groupsFrom]

/-- The used-symbol slice taken by `build_decode_table` (the sorted array
past the final `offsets[0]`) is the canonical symbol order. -/
theorem usedSyms_eq_canonical (lens : List Nat) (maxLen : Nat)
    (hlens : ∀ x ∈ lens, x ≤ maxLen) :
    (sortedPass lens (offsetsOf (countLens lens maxLen) maxLen)).2.drop
        ((sortedPass lens (offsetsOf (countLens lens maxLen) maxLen)).1.getD 0 0) =
      canonicalSyms lens maxLen := by
  obtain ⟨hOL, hAL, hOF, hAR⟩ := sortedPassAt_inv lens maxLen hlens lens.length (Nat.le_refl _)
  have hsp : sortedPass lens (offsetsOf (countLens lens maxLen) maxLen) =
      sortedPassAt lens (offsetsOf (countLens lens maxLen) maxLen) lens.length := rfl
  have hoff0 : (sortedPassAt lens (offsetsOf (countLens lens maxLen) maxLen)
      lens.length).1.getD 0 0 = offsAt (countLens lens maxLen) 1 := by
    rw [hOF 0 (Nat.zero_le _), cntBelow_length, offsAt_succ,
      countLens_getD lens maxLen hlens 0, show offsAt (countLens lens maxLen) 0 = 0 from rfl]
  have hmain := sortedPass_drop_seg lens maxLen hlens maxLen (by omega)
  rw [show maxLen + 1 - maxLen = 1 by omega] at hmain
  rw [hsp, hoff0, hmain]
  rfl

/-- Over-subscription is the failure of the level-wise Kraft bound. -/
theorem overSub_iff (lens : List Nat) (maxLen : Nat) :
    overSubscribed lens maxLen ↔
      ¬(∀ l, 1 ≤ l → l ≤ maxLen → kraftAt l lens ≤ 2 ^ l) := by
  unfold overSubscribed
  constructor
  · rintro ⟨l, hmem, h1, h2⟩ hall
    rw [List.mem_range] at hmem
    have := hall l h1 (by omega)
    omega
  · intro h
    push_neg at h
    obtain ⟨l, h1, h2, h3⟩ := h
    exact ⟨l, List.mem_range.mpr (by omega), h1, by omega⟩

/-- Reduction of `build_decode_table` when the validation scan fails. -/
theorem buildDecodeTable_of_invalid (lens results : List Nat) (tb maxLen : Nat)
    (h : validateRem (countLens lens maxLen) maxLen = none) :
    buildDecodeTable lens results tb maxLen = some none := by
  simp only [buildDecodeTable, h]

/-- Reduction of `build_decode_table` when the validation scan returns a
remainder. -/
theorem buildDecodeTable_of_valid (lens results : List Nat) (tb maxLen : Nat) (rem : Int)
    (h : validateRem (countLens lens maxLen) maxLen = some rem) :
    buildDecodeTable lens results tb maxLen =
      (if rem ≠ 0 then
        if rem = (2 : Int) ^ maxLen then
          some (some (fillEntries 0 (mkEntry (results.getD 0 0) 1) 0 (2 ^ tb) 0))
        else if rem ≠ (2 : Int) ^ (maxLen - 1) ∨
            (countLens lens maxLen).getD 1 0 ≠ 1 then some none
        else (fillPhase results tb maxLen (countLens lens maxLen)
          ((sortedPass lens (offsetsOf (countLens lens maxLen) maxLen)).2.drop
            ((sortedPass lens (offsetsOf (countLens lens maxLen) maxLen)).1.getD 0 0))
          (fillEntries 0 (mkEntry (results.getD 0 0) 1) 0 (2 ^ tb) 0)).map some
      else (fillPhase results tb maxLen (countLens lens maxLen)
        ((sortedPass lens (offsetsOf (countLens lens maxLen) maxLen)).2.drop
          ((sortedPass lens (offsetsOf (countLens lens maxLen) maxLen)).1.getD 0 0))
        0).map some) := by
  simp only [buildDecodeTable, h]

/-- Kraft bounds hold at every level when they hold at the top level. -/
theorem kraft_levels_le (lens : List Nat) (maxLen : Nat)
    (hK : kraftAt maxLen lens ≤ 2 ^ maxLen) :
    ∀ l, 1 ≤ l → l ≤ maxLen → kraftAt l lens ≤ 2 ^ l := by
  intro l h1 h2
  by_contra hgt
  push_neg at hgt
  have hp := kraftAt_pump lens l hgt (maxLen - l)
  rw [show l + (maxLen - l) = maxLen by omega] at hp
  omega

/-- Doubling identity for the integer power of two. -/
theorem int_two_pow_split (maxLen : Nat) (hm : 1 ≤ maxLen) :
    (2 : Int) ^ maxLen = 2 ^ (maxLen - 1) * 2 := by
  rw [← pow_succ]
  congr 1
  omega

/-- Branch analysis of `build_decode_table` under in-range lengths: the
outcome of the validation phase in terms of the Kraft predicates, with the
fill phase running over the canonical symbol order. -/
theorem buildDecodeTable_cases (lens results : List Nat) (tb maxLen : Nat)
    (hlens : ∀ x ∈ lens, x ≤ maxLen) (hm : 1 ≤ maxLen) :
    (overSubscribed lens maxLen → buildDecodeTable lens results tb maxLen = some none) ∧
    (emptyCode lens →
      buildDecodeTable lens results tb maxLen =
        some (some (fillEntries 0 (mkEntry (results.getD 0 0) 1) 0 (2 ^ tb) 0))) ∧
    (¬overSubscribed lens maxLen → ¬completeCode lens maxLen → ¬emptyCode lens →
      ¬singleLen1Code lens → buildDecodeTable lens results tb maxLen = some none) ∧
    (singleLen1Code lens →
      buildDecodeTable lens results tb maxLen =
        (fillPhase results tb maxLen (countLens lens maxLen) (canonicalSyms lens maxLen)
          (fillEntries 0 (mkEntry (results.getD 0 0) 1) 0 (2 ^ tb) 0)).map some) ∧
    (completeCode lens maxLen →
      buildDecodeTable lens results tb maxLen =
        (fillPhase results tb maxLen (countLens lens maxLen)
          (canonicalSyms lens maxLen) 0).map some) := by
  have hc : ∀ l, 1 ≤ l → (countLens lens maxLen).getD l 0 = lens.count l :=
    fun l _ => countLens_getD lens maxLen hlens l
  have hval := validateRem_eq lens (countLens lens maxLen) hc maxLen
  have hused := usedSyms_eq_canonical lens maxLen hlens
  have hpow := int_two_pow_split maxLen hm
  have hp1 : (0 : Int) < 2 ^ (maxLen - 1) := by positivity
  refine ⟨?_, ?_, ?_, ?_, ?_⟩
  · -- over-subscribed: the validation scan fails
    intro hover
    rw [overSub_iff] at hover
    exact buildDecodeTable_of_invalid lens results tb maxLen (by rw [hval, if_neg hover])
  · -- completely empty code
    intro hempty
    have hK : kraftAt maxLen lens = 0 := (kraft_eq_zero_iff lens maxLen hlens).mpr hempty
    rw [buildDecodeTable_of_valid lens results tb maxLen _
      (by rw [hval, if_pos (kraft_levels_le lens maxLen (by rw [hK]; exact Nat.zero_le _))])]
    rw [hK]
    rw [if_pos (by push_cast; omega), if_pos (by push_cast; ring)]
  · -- incomplete, nonempty, not the single-length-1 case: return false
    intro hover hcomp hempty hs1
    rw [overSub_iff] at hover
    push_neg at hover
    have hK0 : kraftAt maxLen lens ≠ 0 := fun h =>
      hempty ((kraft_eq_zero_iff lens maxLen hlens).mp h)
    have hKc : kraftAt maxLen lens ≠ 2 ^ maxLen := hcomp
    have hKle : kraftAt maxLen lens ≤ 2 ^ maxLen := hover maxLen hm (le_refl _)
    have hcast : ((2 ^ maxLen : Nat) : Int) = (2 : Int) ^ maxLen := by push_cast; ring
    rw [buildDecodeTable_of_valid lens results tb maxLen _ (by rw [hval, if_pos hover])]
    rw [if_pos (by
      push_cast
      intro hcon
      apply hKc
      have : ((kraftAt maxLen lens : Nat) : Int) = ((2 ^ maxLen : Nat) : Int) := by
        rw [hcast]
        omega
      exact_mod_cast this)]
    rw [if_neg (by
      push_cast
      intro hcon
      apply hK0
      have : ((kraftAt maxLen lens : Nat) : Int) = 0 := by omega
      exact_mod_cast this)]
    rw [if_pos]
    by_cases hKrem : kraftAt maxLen lens = 2 ^ (maxLen - 1)
    · right
      rw [hc 1 (by omega)]
      intro hcnt
      exact hs1 ((single1_iff lens maxLen hlens hm).mp ⟨hKrem, by omega⟩)
    · left
      intro h
      apply hKrem
      push_cast at h
      have hc2 : ((2 ^ (maxLen - 1) : Nat) : Int) = (2 : Int) ^ (maxLen - 1) := by
        push_cast
        ring
      have : ((kraftAt maxLen lens : Nat) : Int) = ((2 ^ (maxLen - 1) : Nat) : Int) := by
        omega
      exact_mod_cast this
  · -- single codeword of length 1
    intro hs1
    have hz := (single1_iff lens maxLen hlens hm).mpr hs1
    have hover : ∀ l, 1 ≤ l → l ≤ maxLen → kraftAt l lens ≤ 2 ^ l := by
      intro l h1 h2
      rw [kraft_of_le_one l h1 lens hs1.2, hs1.1, one_mul]
      exact Nat.pow_le_pow_right (by norm_num) (by omega)
    have hcast : ((kraftAt maxLen lens : Nat) : Int) = (2 : Int) ^ (maxLen - 1) := by
      rw [hz.1]
      push_cast
      ring
    rw [buildDecodeTable_of_valid lens results tb maxLen _ (by rw [hval, if_pos hover])]
    rw [if_pos (by rw [hcast]; push_cast; omega),
      if_neg (by rw [hcast]; push_cast; omega), if_neg (by
      rw [hc 1 (by omega), hz.2, hcast]
      push_cast
      intro hcon
      rcases hcon with hcon | hcon
      · omega
      · exact hcon rfl)]
    rw [hused]
  · -- complete code
    intro hcomp
    have hover := kraft_levels_le lens maxLen (by rw [completeCode] at hcomp; omega)
    have hcast : ((kraftAt maxLen lens : Nat) : Int) = (2 : Int) ^ maxLen := by
      rw [hcomp]
      push_cast
      ring
    rw [buildDecodeTable_of_valid lens results tb maxLen _ (by rw [hval, if_pos hover])]
    rw [if_neg (by rw [hcast]; push_cast; omega)]
    rw [hused]

end Libdeflate
